import Mathlib

/-
Verification of the `regsafe` regular-expression tokenizer (src/index.ts).

The tokenizer is a class `Regsafe` with a mutable cursor `position` into an
immutable input string `regex`.  Every scan routine reads characters via
JavaScript string indexing, where an out-of-range read yields `undefined`.
We embed that as `Option Char`: `none` is `undefined`.  JavaScript string
concatenation coerces `undefined` to the text "undefined"; `jsStr` models
that coercion.

Each `while` loop of the source is embedded as a structurally recursive
function on a fuel argument; the wrapper passes fuel `regex.length - pos`,
which is sufficient because every loop iteration advances the cursor by at
least one (proved below as the `_le` / advance lemmas), so the fuel-exhausted
branch coincides with the loop's exit condition `pos < regex.length` being
false.  Fuel-independence above this threshold is proved for the top-level
loop (`mainLoopF_irrel`).
-/

namespace Regsafe

/-- Token types of the tokenizer, mirroring `enum TokenType` in the source. -/
inductive TokenType where
  | CHAR
  | META_CHAR
  | GROUP_OPEN
  | GROUP_CLOSE
  | RANGE_OPEN
  | RANGE_CLOSE
  | PIPE
  | QUANTIFIER
  | ESCAPE
  | ANCHOR
  | LOOKAHEAD
  | NEG_LOOKAHEAD
  | UNICODE_ESCAPE
  | HEX_ESCAPE
  | BACKREFERENCE
  deriving DecidableEq, Repr

/-- A token: `interface Token` in the source.  `value` is the token's text,
`position` the cursor value at the moment `createToken` was called. -/
structure Token where
  type : TokenType
  value : List Char
  position : Nat
  deriving DecidableEq, Repr

/-- The opening curly brace character. -/
def lbrace : Char := Char.ofNat 123

/-- The closing curly brace character. -/
def rbrace : Char := Char.ofNat 125

/-- JavaScript string indexing `regex[i]`: out-of-range reads yield
`undefined`, modelled as `none`. -/
def jsGet (regex : List Char) (i : Nat) : Option Char := regex.get? i

/-- JavaScript string concatenation of a possibly-undefined character:
`s + undefined` appends the text "undefined". -/
def jsStr : Option Char → List Char
  | some c => [c]
  | none => ['u', 'n', 'd', 'e', 'f', 'i', 'n', 'e', 'd']

/-- Mirrors `isMetaChar`: one of `*`, `+`, `?`, `.`. -/
def isMetaChar (c : Char) : Bool := c == '*' || c == '+' || c == '?' || c == '.'

/-- Mirrors `isAnchor`: `^` or `$`. -/
def isAnchor (c : Char) : Bool := c == '^' || c == '$'

/-- Mirrors `isQuantifierStart`: the character `{`. -/
def isQuantifierStart (c : Char) : Bool := c == lbrace

/-- Mirrors the regex test `/[0-9]/.test(escapeChar)`; on `undefined` the test
coerces to the string "undefined", which holds no digit, hence `false`. -/
def jsDigitTest : Option Char → Bool
  | some c => c.isDigit
  | none => false

/-- Loop body of `parseQuantifier`: accumulate characters until `}` or end of
input.  Returns the accumulated characters and the stop position. -/
def quantLoopF (regex : List Char) : Nat → Nat → List Char × Nat
  | 0, pos => ([], pos)
  | fuel + 1, pos =>
    match jsGet regex pos with
    | none => ([], pos)
    | some c =>
      if c = rbrace then ([], pos)
      else
        let r := quantLoopF regex fuel (pos + 1)
        (c :: r.1, r.2)

/-- The `parseQuantifier` accumulation loop with sufficient fuel. -/
def quantLoop (regex : List Char) (pos : Nat) : List Char × Nat :=
  quantLoopF regex (regex.length - pos) pos

/-- Mirrors `parseQuantifier`, entered with the cursor on `{`.  The `{` is
skipped without entering the text; a `}` is appended unconditionally; the
token's position is captured after the final cursor increment. -/
def parseQuantifier (regex : List Char) (pos : Nat) : Token × Nat :=
  let r := quantLoop regex (pos + 1)
  (Token.mk .QUANTIFIER (r.1 ++ [rbrace]) (r.2 + 1), r.2 + 1)

/-- Loop body of `parseRange`: emit a `CHAR` token per character until `]` or
end of input.  The source's `-` branch and its `else` branch emit the same
`CHAR` token, so they are embedded as one case. -/
def rangeLoopF (regex : List Char) : Nat → Nat → List Token × Nat
  | 0, pos => ([], pos)
  | fuel + 1, pos =>
    match jsGet regex pos with
    | none => ([], pos)
    | some c =>
      if c = ']' then ([], pos)
      else
        let r := rangeLoopF regex fuel (pos + 1)
        (Token.mk .CHAR [c] pos :: r.1, r.2)

/-- The `parseRange` content loop with sufficient fuel. -/
def rangeLoop (regex : List Char) (pos : Nat) : List Token × Nat :=
  rangeLoopF regex (regex.length - pos) pos

/-- Mirrors `parseRange`, entered with the cursor on `[`.  `RANGE_OPEN` is
created before advancing, `RANGE_CLOSE` at the stop position before the final
increment. -/
def parseRange (regex : List Char) (pos : Nat) : List Token × Nat :=
  let r := rangeLoop regex (pos + 1)
  (Token.mk .RANGE_OPEN ['['] pos :: r.1 ++ [Token.mk .RANGE_CLOSE [']'] r.2],
    r.2 + 1)

/-- Mirrors `parseUnicodeEscape`, entered with the cursor on the `u`.  Reads
the next four characters (past end of input they are `undefined`), the token
position is captured after all increments. -/
def parseUnicodeEscape (regex : List Char) (pos : Nat) : Token × Nat :=
  let v := ['\\', 'u'] ++ jsStr (jsGet regex (pos + 1)) ++
    jsStr (jsGet regex (pos + 2)) ++ jsStr (jsGet regex (pos + 3)) ++
    jsStr (jsGet regex (pos + 4))
  (Token.mk .UNICODE_ESCAPE v (pos + 5), pos + 5)

/-- Mirrors `parseHexEscape`, entered with the cursor on the `x`. -/
def parseHexEscape (regex : List Char) (pos : Nat) : Token × Nat :=
  let v := ['\\', 'x'] ++ jsStr (jsGet regex (pos + 1)) ++
    jsStr (jsGet regex (pos + 2))
  (Token.mk .HEX_ESCAPE v (pos + 3), pos + 3)

/-- Mirrors `parseBackreference`, entered with the cursor on the digit:
exactly one digit is consumed, the token position is captured after the
increment. -/
def parseBackreference (regex : List Char) (pos : Nat) : Token × Nat :=
  (Token.mk .BACKREFERENCE ('\\' :: jsStr (jsGet regex pos)) (pos + 1), pos + 1)

/-- Mirrors `parseEscape`, entered with the cursor on the backslash.  Note the
generic branch creates the token before incrementing, so its position is the
offset of the escaped character. -/
def parseEscape (regex : List Char) (pos : Nat) : Token × Nat :=
  let escapeChar := jsGet regex (pos + 1)
  if escapeChar = some 'u' then parseUnicodeEscape regex (pos + 1)
  else if escapeChar = some 'x' then parseHexEscape regex (pos + 1)
  else if jsDigitTest escapeChar then parseBackreference regex (pos + 1)
  else (Token.mk .ESCAPE ('\\' :: jsStr escapeChar) (pos + 1), pos + 2)

/-- Loop of `tokenizeGroupContent`: the restricted dispatch used inside a
group — no `(` case, stops on `)` or end of input. -/
def gcLoopF (regex : List Char) : Nat → Nat → List Token × Nat
  | 0, pos => ([], pos)
  | fuel + 1, pos =>
    match jsGet regex pos with
    | none => ([], pos)
    | some c =>
      if c = ')' then ([], pos)
      else if isAnchor c then
        let r := gcLoopF regex fuel (pos + 1)
        (Token.mk .ANCHOR [c] pos :: r.1, r.2)
      else if isMetaChar c then
        let r := gcLoopF regex fuel (pos + 1)
        (Token.mk .META_CHAR [c] pos :: r.1, r.2)
      else if c = '[' then
        let b := parseRange regex pos
        let r := gcLoopF regex fuel b.2
        (b.1 ++ r.1, r.2)
      else if isQuantifierStart c then
        let b := parseQuantifier regex pos
        let r := gcLoopF regex fuel b.2
        (b.1 :: r.1, r.2)
      else if c = '\\' then
        let b := parseEscape regex pos
        let r := gcLoopF regex fuel b.2
        (b.1 :: r.1, r.2)
      else if c = '|' then
        let r := gcLoopF regex fuel (pos + 1)
        (Token.mk .PIPE [c] pos :: r.1, r.2)
      else
        let r := gcLoopF regex fuel (pos + 1)
        (Token.mk .CHAR [c] pos :: r.1, r.2)

/-- Mirrors `tokenizeGroupContent` with sufficient fuel. -/
def tokenizeGroupContent (regex : List Char) (pos : Nat) : List Token × Nat :=
  gcLoopF regex (regex.length - pos) pos

/-- The `while` loop of `parseGroup`: repeatedly invoke the group-content scan
until `)` or end of input. -/
def pgLoopF (regex : List Char) : Nat → Nat → List Token × Nat
  | 0, pos => ([], pos)
  | fuel + 1, pos =>
    match jsGet regex pos with
    | none => ([], pos)
    | some c =>
      if c = ')' then ([], pos)
      else
        let b := tokenizeGroupContent regex pos
        let r := pgLoopF regex fuel b.2
        (b.1 ++ r.1, r.2)

/-- The lookahead handling at the start of `parseGroup`, entered with the
cursor on `(` at `pos`.  If the character after `(` is `?` it is consumed; a
following `=` yields `LOOKAHEAD` with text "(?=", a following `!` yields
`NEG_LOOKAHEAD` with the fixed text "(?!)"; any other character after the `?`
emits nothing for the consumed `?`.  Returns the emitted tokens and the
cursor value after this optional part. -/
def groupPre (regex : List Char) (pos : Nat) : List Token × Nat :=
  if jsGet regex (pos + 1) = some '?' then
    if jsGet regex (pos + 2) = some '=' then
      (([Token.mk .LOOKAHEAD ['(', '?', '='] (pos + 2)] : List Token), pos + 3)
    else if jsGet regex (pos + 2) = some '!' then
      ([Token.mk .NEG_LOOKAHEAD ['(', '?', '!', ')'] (pos + 2)], pos + 3)
    else ([], pos + 2)
  else ([], pos + 1)

/-- Mirrors `parseGroup`, entered with the cursor on `(`.  `GROUP_OPEN` is
created before advancing, then the optional lookahead part (`groupPre`), then
the content loop until `)` or end of input.  `GROUP_CLOSE` always has text
")" and is created at the loop's stop position before the final increment
(even when the input ended before any `)` was found). -/
def parseGroup (regex : List Char) (pos : Nat) : List Token × Nat :=
  let p := groupPre regex pos
  let r := pgLoopF regex (regex.length - p.2) p.2
  (Token.mk .GROUP_OPEN ['('] pos ::
      (p.1 ++ r.1 ++ [Token.mk .GROUP_CLOSE [')'] r.2]),
    r.2 + 1)

/-- The top-level `while` loop of `tokenize`, dispatching on the character at
the cursor in the source's precedence order. -/
def mainLoopF (regex : List Char) : Nat → Nat → List Token × Nat
  | 0, pos => ([], pos)
  | fuel + 1, pos =>
    match jsGet regex pos with
    | none => ([], pos)
    | some c =>
      if isAnchor c then
        let r := mainLoopF regex fuel (pos + 1)
        (Token.mk .ANCHOR [c] pos :: r.1, r.2)
      else if isMetaChar c then
        let r := mainLoopF regex fuel (pos + 1)
        (Token.mk .META_CHAR [c] pos :: r.1, r.2)
      else if c = '(' then
        let b := parseGroup regex pos
        let r := mainLoopF regex fuel b.2
        (b.1 ++ r.1, r.2)
      else if c = '[' then
        let b := parseRange regex pos
        let r := mainLoopF regex fuel b.2
        (b.1 ++ r.1, r.2)
      else if isQuantifierStart c then
        let b := parseQuantifier regex pos
        let r := mainLoopF regex fuel b.2
        (b.1 :: r.1, r.2)
      else if c = '\\' then
        let b := parseEscape regex pos
        let r := mainLoopF regex fuel b.2
        (b.1 :: r.1, r.2)
      else if c = '|' then
        let r := mainLoopF regex fuel (pos + 1)
        (Token.mk .PIPE [c] pos :: r.1, r.2)
      else
        let r := mainLoopF regex fuel (pos + 1)
        (Token.mk .CHAR [c] pos :: r.1, r.2)

/-- The `tokenize` method run from an arbitrary cursor value: it returns the
emitted tokens together with the cursor's final value (the instance's
`position` field is not reset by `tokenize`). -/
def tokenizeFrom (regex : List Char) (pos : Nat) : List Token × Nat :=
  mainLoopF regex (regex.length - pos) pos

/-- `new Regsafe(regex).tokenize()`: the full tokenization of an input. -/
def tokenize (regex : List Char) : List Token :=
  (tokenizeFrom regex 0).1

/-- Token kinds that are created with the cursor on the very character they
hold, so their text is exactly that one input character. -/
def singleCharKind : TokenType → Bool
  | .CHAR => true
  | .META_CHAR => true
  | .ANCHOR => true
  | .PIPE => true
  | .GROUP_OPEN => true
  | .RANGE_OPEN => true
  | _ => false

/-- Invariant of every token emitted by a scan entered at cursor `lo` that
exited at cursor `hi`: its recorded position lies in `[lo, hi]`, and if it is
of a single-character kind its text is exactly the input character at its
recorded position. -/
def TokOK (regex : List Char) (lo hi : Nat) (t : Token) : Prop :=
  lo ≤ t.position ∧ t.position ≤ hi ∧
    (singleCharKind t.type = true →
      ∃ c, jsGet regex t.position = some c ∧ t.value = [c])

/-- Token kinds never produced by the scans reachable from group content. -/
def notLa (t : Token) : Prop :=
  t.type ≠ TokenType.LOOKAHEAD ∧ t.type ≠ TokenType.NEG_LOOKAHEAD

/-- The ordering of tokens by recorded position. -/
def posLE (a b : Token) : Prop := a.position ≤ b.position

/-- The concatenation of the texts of a token list, in sequence order. -/
def joinVals (ts : List Token) : List Char := (ts.map Token.value).join

/-- Decides whether the first list is an initial segment of the second. -/
def isPrefixB : List Char → List Char → Bool
  | [], _ => true
  | _ :: _, [] => false
  | a :: as, b :: bs => a = b && isPrefixB as bs

/-- Decides whether the first list occurs as a contiguous run inside the
second ("is an exact substring of"). -/
def isSubstrB (v : List Char) : List Char → Bool
  | [] => v.isEmpty
  | s@(_ :: rest) => isPrefixB v s || isSubstrB v rest

/-! ### Basic facts about out-of-range reads -/

theorem jsGet_none_of_le {regex : List Char} {i : Nat}
    (h : regex.length ≤ i) : jsGet regex i = none := by
  simp [jsGet, List.get?_eq_none, h]

theorem lt_of_jsGet_some {regex : List Char} {i : Nat} {c : Char}
    (h : jsGet regex i = some c) : i < regex.length := by
  by_contra hi
  rw [jsGet_none_of_le (by (try dsimp only); omega)] at h
  exact Option.noConfusion h

theorem jsGet_some_of_lt {regex : List Char} {i : Nat}
    (h : i < regex.length) : ∃ c, jsGet regex i = some c := by
  cases hg : jsGet regex i with
  | none =>
    simp only [jsGet, List.get?_eq_none] at hg
    (try dsimp only); omega
  | some c => exact ⟨c, rfl⟩

/-! ### The cursor never decreases: lower bounds on every scan's exit -/

theorem quantLoopF_le (regex : List Char) :
    ∀ fuel pos, pos ≤ (quantLoopF regex fuel pos).2 := by
  intro fuel
  induction fuel with
  | zero => intro pos; simp [quantLoopF]
  | succ n ih =>
    intro pos
    simp only [quantLoopF]
    cases hg : jsGet regex pos with
    | none => simp
    | some c =>
      by_cases hc : c = rbrace
      · simp [hc]
      · simp only [if_neg hc]
        have := ih (pos + 1)
        (try dsimp only); omega

theorem rangeLoopF_le (regex : List Char) :
    ∀ fuel pos, pos ≤ (rangeLoopF regex fuel pos).2 := by
  intro fuel
  induction fuel with
  | zero => intro pos; simp [rangeLoopF]
  | succ n ih =>
    intro pos
    simp only [rangeLoopF]
    cases hg : jsGet regex pos with
    | none => simp
    | some c =>
      by_cases hc : c = ']'
      · simp [hc]
      · simp only [if_neg hc]
        have := ih (pos + 1)
        (try dsimp only); omega

theorem parseQuantifier_advance (regex : List Char) (pos : Nat) :
    pos + 2 ≤ (parseQuantifier regex pos).2 := by
  have := quantLoopF_le regex (regex.length - (pos + 1)) (pos + 1)
  simp only [parseQuantifier, quantLoop]
  (try dsimp only); omega

theorem parseRange_advance (regex : List Char) (pos : Nat) :
    pos + 2 ≤ (parseRange regex pos).2 := by
  have := rangeLoopF_le regex (regex.length - (pos + 1)) (pos + 1)
  simp only [parseRange, rangeLoop]
  (try dsimp only); omega

theorem parseEscape_advance (regex : List Char) (pos : Nat) :
    pos + 2 ≤ (parseEscape regex pos).2 := by
  simp only [parseEscape]
  split
  · simp [parseUnicodeEscape]
  · split
    · simp [parseHexEscape]
    · split
      · simp [parseBackreference]
      · simp

theorem gcLoopF_le (regex : List Char) :
    ∀ fuel pos, pos ≤ (gcLoopF regex fuel pos).2 := by
  intro fuel
  induction fuel with
  | zero => intro pos; simp [gcLoopF]
  | succ n ih =>
    intro pos
    simp only [gcLoopF]
    cases hg : jsGet regex pos with
    | none => simp
    | some c =>
      by_cases h1 : c = ')'
      · simp [h1]
      by_cases h2 : isAnchor c
      · simp only [if_neg h1, if_pos h2]
        have := ih (pos + 1); (try dsimp only); omega
      by_cases h3 : isMetaChar c
      · simp only [if_neg h1, if_neg h2, if_pos h3]
        have := ih (pos + 1); (try dsimp only); omega
      by_cases h4 : c = '['
      · simp only [if_neg h1, if_neg h2, if_neg h3, if_pos h4]
        have ha := parseRange_advance regex pos
        have := ih (parseRange regex pos).2; (try dsimp only); omega
      by_cases h5 : isQuantifierStart c
      · simp only [if_neg h1, if_neg h2, if_neg h3, if_neg h4, if_pos h5]
        have ha := parseQuantifier_advance regex pos
        have := ih (parseQuantifier regex pos).2; (try dsimp only); omega
      by_cases h6 : c = '\\'
      · simp only [if_neg h1, if_neg h2, if_neg h3, if_neg h4, if_neg h5,
          if_pos h6]
        have ha := parseEscape_advance regex pos
        have := ih (parseEscape regex pos).2; (try dsimp only); omega
      by_cases h7 : c = '|'
      · simp only [if_neg h1, if_neg h2, if_neg h3, if_neg h4, if_neg h5,
          if_neg h6, if_pos h7]
        have := ih (pos + 1); (try dsimp only); omega
      · simp only [if_neg h1, if_neg h2, if_neg h3, if_neg h4, if_neg h5,
          if_neg h6, if_neg h7]
        have := ih (pos + 1); (try dsimp only); omega

/-- On entry to an iteration of the group-content loop (a character is
present and it is not `)`), the loop strictly advances the cursor. -/
theorem gcLoopF_advance (regex : List Char) (fuel pos : Nat) {c : Char}
    (hf : 0 < fuel) (hg : jsGet regex pos = some c) (hc : c ≠ ')') :
    pos + 1 ≤ (gcLoopF regex fuel pos).2 := by
  cases fuel with
  | zero => (try dsimp only); omega
  | succ n =>
    simp only [gcLoopF, hg]
    by_cases h2 : isAnchor c
    · simp only [if_neg hc, if_pos h2]
      have := gcLoopF_le regex n (pos + 1); (try dsimp only); omega
    by_cases h3 : isMetaChar c
    · simp only [if_neg hc, if_neg h2, if_pos h3]
      have := gcLoopF_le regex n (pos + 1); (try dsimp only); omega
    by_cases h4 : c = '['
    · simp only [if_neg hc, if_neg h2, if_neg h3, if_pos h4]
      have ha := parseRange_advance regex pos
      have := gcLoopF_le regex n (parseRange regex pos).2; (try dsimp only); omega
    by_cases h5 : isQuantifierStart c
    · simp only [if_neg hc, if_neg h2, if_neg h3, if_neg h4, if_pos h5]
      have ha := parseQuantifier_advance regex pos
      have := gcLoopF_le regex n (parseQuantifier regex pos).2; (try dsimp only); omega
    by_cases h6 : c = '\\'
    · simp only [if_neg hc, if_neg h2, if_neg h3, if_neg h4, if_neg h5,
        if_pos h6]
      have ha := parseEscape_advance regex pos
      have := gcLoopF_le regex n (parseEscape regex pos).2; (try dsimp only); omega
    by_cases h7 : c = '|'
    · simp only [if_neg hc, if_neg h2, if_neg h3, if_neg h4, if_neg h5,
        if_neg h6, if_pos h7]
      have := gcLoopF_le regex n (pos + 1); (try dsimp only); omega
    · simp only [if_neg hc, if_neg h2, if_neg h3, if_neg h4, if_neg h5,
        if_neg h6, if_neg h7]
      have := gcLoopF_le regex n (pos + 1); (try dsimp only); omega

theorem tokenizeGroupContent_le (regex : List Char) (pos : Nat) :
    pos ≤ (tokenizeGroupContent regex pos).2 :=
  gcLoopF_le regex _ pos

/-- On entry to an iteration of `parseGroup`'s loop, the group-content scan
strictly advances the cursor. -/
theorem tokenizeGroupContent_advance (regex : List Char) (pos : Nat) {c : Char}
    (hg : jsGet regex pos = some c) (hc : c ≠ ')') :
    pos + 1 ≤ (tokenizeGroupContent regex pos).2 := by
  have hlt := lt_of_jsGet_some hg
  exact gcLoopF_advance regex _ pos (by (try dsimp only); omega) hg hc

theorem pgLoopF_le (regex : List Char) :
    ∀ fuel pos, pos ≤ (pgLoopF regex fuel pos).2 := by
  intro fuel
  induction fuel with
  | zero => intro pos; simp [pgLoopF]
  | succ n ih =>
    intro pos
    simp only [pgLoopF]
    cases hg : jsGet regex pos with
    | none => simp
    | some c =>
      by_cases h1 : c = ')'
      · simp [h1]
      · simp only [if_neg h1]
        have ha := tokenizeGroupContent_le regex pos
        have := ih (tokenizeGroupContent regex pos).2; (try dsimp only); omega

theorem groupPre_bounds (regex : List Char) (pos : Nat) :
    pos + 1 ≤ (groupPre regex pos).2 ∧ (groupPre regex pos).2 ≤ pos + 3 := by
  simp only [groupPre]
  split
  · split
    · simp
    · split <;> simp
  · simp

theorem groupPre_toks (regex : List Char) (pos : Nat) :
    ∀ t ∈ (groupPre regex pos).1,
      t.position = pos + 2 ∧ singleCharKind t.type = false ∧
        (t.type = TokenType.LOOKAHEAD ∨ t.type = TokenType.NEG_LOOKAHEAD) ∧
        t.position + 1 ≤ (groupPre regex pos).2 := by
  intro t ht
  simp only [groupPre] at ht ⊢
  split at ht <;> rename_i hq
  · split at ht <;> rename_i he
    · simp only [List.mem_singleton] at ht
      subst ht
      refine ⟨rfl, rfl, Or.inl rfl, ?_⟩
      simp only [if_pos hq, if_pos he]
      omega
    · split at ht <;> rename_i hb
      · simp only [List.mem_singleton] at ht
        subst ht
        refine ⟨rfl, rfl, Or.inr rfl, ?_⟩
        simp only [if_pos hq, if_neg he, if_pos hb]
        omega
      · simp at ht
  · simp at ht

theorem parseGroup_advance (regex : List Char) (pos : Nat) :
    pos + 2 ≤ (parseGroup regex pos).2 := by
  have hb := groupPre_bounds regex pos
  have := pgLoopF_le regex (regex.length - (groupPre regex pos).2)
    (groupPre regex pos).2
  simp only [parseGroup]
  omega

theorem mainLoopF_le (regex : List Char) :
    ∀ fuel pos, pos ≤ (mainLoopF regex fuel pos).2 := by
  intro fuel
  induction fuel with
  | zero => intro pos; simp [mainLoopF]
  | succ n ih =>
    intro pos
    simp only [mainLoopF]
    cases hg : jsGet regex pos with
    | none => simp
    | some c =>
      by_cases h1 : isAnchor c
      · simp only [if_pos h1]
        have := ih (pos + 1); (try dsimp only); omega
      by_cases h2 : isMetaChar c
      · simp only [if_neg h1, if_pos h2]
        have := ih (pos + 1); (try dsimp only); omega
      by_cases h3 : c = '('
      · simp only [if_neg h1, if_neg h2, if_pos h3]
        have ha := parseGroup_advance regex pos
        have := ih (parseGroup regex pos).2; (try dsimp only); omega
      by_cases h4 : c = '['
      · simp only [if_neg h1, if_neg h2, if_neg h3, if_pos h4]
        have ha := parseRange_advance regex pos
        have := ih (parseRange regex pos).2; (try dsimp only); omega
      by_cases h5 : isQuantifierStart c
      · simp only [if_neg h1, if_neg h2, if_neg h3, if_neg h4, if_pos h5]
        have ha := parseQuantifier_advance regex pos
        have := ih (parseQuantifier regex pos).2; (try dsimp only); omega
      by_cases h6 : c = '\\'
      · simp only [if_neg h1, if_neg h2, if_neg h3, if_neg h4, if_neg h5,
          if_pos h6]
        have ha := parseEscape_advance regex pos
        have := ih (parseEscape regex pos).2; (try dsimp only); omega
      by_cases h7 : c = '|'
      · simp only [if_neg h1, if_neg h2, if_neg h3, if_neg h4, if_neg h5,
          if_neg h6, if_pos h7]
        have := ih (pos + 1); (try dsimp only); omega
      · simp only [if_neg h1, if_neg h2, if_neg h3, if_neg h4, if_neg h5,
          if_neg h6, if_neg h7]
        have := ih (pos + 1); (try dsimp only); omega

/-- On entry to an iteration of the top-level loop (a character is present at
the cursor), the loop strictly advances the cursor. -/
theorem mainLoopF_advance (regex : List Char) (fuel pos : Nat) {c : Char}
    (hf : 0 < fuel) (hg : jsGet regex pos = some c) :
    pos + 1 ≤ (mainLoopF regex fuel pos).2 := by
  cases fuel with
  | zero => omega
  | succ n =>
    simp only [mainLoopF, hg]
    by_cases h1 : isAnchor c
    · simp only [if_pos h1]
      have := mainLoopF_le regex n (pos + 1); omega
    by_cases h2 : isMetaChar c
    · simp only [if_neg h1, if_pos h2]
      have := mainLoopF_le regex n (pos + 1); omega
    by_cases h3 : c = '('
    · simp only [if_neg h1, if_neg h2, if_pos h3]
      have ha := parseGroup_advance regex pos
      have := mainLoopF_le regex n (parseGroup regex pos).2; omega
    by_cases h4 : c = '['
    · simp only [if_neg h1, if_neg h2, if_neg h3, if_pos h4]
      have ha := parseRange_advance regex pos
      have := mainLoopF_le regex n (parseRange regex pos).2; omega
    by_cases h5 : isQuantifierStart c
    · simp only [if_neg h1, if_neg h2, if_neg h3, if_neg h4, if_pos h5]
      have ha := parseQuantifier_advance regex pos
      have := mainLoopF_le regex n (parseQuantifier regex pos).2; omega
    by_cases h6 : c = '\\'
    · simp only [if_neg h1, if_neg h2, if_neg h3, if_neg h4, if_neg h5,
        if_pos h6]
      have ha := parseEscape_advance regex pos
      have := mainLoopF_le regex n (parseEscape regex pos).2; omega
    by_cases h7 : c = '|'
    · simp only [if_neg h1, if_neg h2, if_neg h3, if_neg h4, if_neg h5,
        if_neg h6, if_pos h7]
      have := mainLoopF_le regex n (pos + 1); omega
    · simp only [if_neg h1, if_neg h2, if_neg h3, if_neg h4, if_neg h5,
        if_neg h6, if_neg h7]
      have := mainLoopF_le regex n (pos + 1); omega

/-! ### Loop exit conditions: with sufficient fuel, every loop stops either at
its terminator character or past the end of the input -/

theorem quantLoopF_stop (regex : List Char) :
    ∀ fuel pos, regex.length - pos ≤ fuel →
      jsGet regex (quantLoopF regex fuel pos).2 = none ∨
        jsGet regex (quantLoopF regex fuel pos).2 = some rbrace := by
  intro fuel
  induction fuel with
  | zero =>
    intro pos hf
    simp only [quantLoopF]
    exact Or.inl (jsGet_none_of_le (by (try dsimp only); omega))
  | succ n ih =>
    intro pos hf
    simp only [quantLoopF]
    cases hg : jsGet regex pos with
    | none => simp [hg]
    | some c =>
      by_cases hc : c = rbrace
      · simp [hc, hg]
      · simp only [if_neg hc]
        have hlt := lt_of_jsGet_some hg
        exact ih (pos + 1) (by (try dsimp only); omega)

theorem rangeLoopF_stop (regex : List Char) :
    ∀ fuel pos, regex.length - pos ≤ fuel →
      jsGet regex (rangeLoopF regex fuel pos).2 = none ∨
        jsGet regex (rangeLoopF regex fuel pos).2 = some ']' := by
  intro fuel
  induction fuel with
  | zero =>
    intro pos hf
    simp only [rangeLoopF]
    exact Or.inl (jsGet_none_of_le (by (try dsimp only); omega))
  | succ n ih =>
    intro pos hf
    simp only [rangeLoopF]
    cases hg : jsGet regex pos with
    | none => simp [hg]
    | some c =>
      by_cases hc : c = ']'
      · simp [hc, hg]
      · simp only [if_neg hc]
        have hlt := lt_of_jsGet_some hg
        exact ih (pos + 1) (by (try dsimp only); omega)

theorem pgLoopF_stop (regex : List Char) :
    ∀ fuel pos, regex.length - pos ≤ fuel →
      jsGet regex (pgLoopF regex fuel pos).2 = none ∨
        jsGet regex (pgLoopF regex fuel pos).2 = some ')' := by
  intro fuel
  induction fuel with
  | zero =>
    intro pos hf
    simp only [pgLoopF]
    exact Or.inl (jsGet_none_of_le (by (try dsimp only); omega))
  | succ n ih =>
    intro pos hf
    simp only [pgLoopF]
    cases hg : jsGet regex pos with
    | none => simp [hg]
    | some c =>
      by_cases hc : c = ')'
      · simp [hc, hg]
      · simp only [if_neg hc]
        have hlt := lt_of_jsGet_some hg
        have hadv := tokenizeGroupContent_advance regex pos hg hc
        exact ih (tokenizeGroupContent regex pos).2 (by (try dsimp only); omega)

/-- With sufficient fuel, the top-level loop consumes the whole input: its
final cursor value is at least the input length. -/
theorem mainLoopF_complete (regex : List Char) :
    ∀ fuel pos, regex.length - pos ≤ fuel →
      regex.length ≤ (mainLoopF regex fuel pos).2 := by
  intro fuel
  induction fuel with
  | zero =>
    intro pos hf
    simp only [mainLoopF]
    (try dsimp only); omega
  | succ n ih =>
    intro pos hf
    simp only [mainLoopF]
    cases hg : jsGet regex pos with
    | none =>
      simp only [jsGet, List.get?_eq_none] at hg
      (try dsimp only); omega
    | some c =>
      have hlt := lt_of_jsGet_some hg
      by_cases h1 : isAnchor c
      · simp only [if_pos h1]
        exact ih (pos + 1) (by (try dsimp only); omega)
      by_cases h2 : isMetaChar c
      · simp only [if_neg h1, if_pos h2]
        exact ih (pos + 1) (by (try dsimp only); omega)
      by_cases h3 : c = '('
      · simp only [if_neg h1, if_neg h2, if_pos h3]
        have ha := parseGroup_advance regex pos
        exact ih (parseGroup regex pos).2 (by (try dsimp only); omega)
      by_cases h4 : c = '['
      · simp only [if_neg h1, if_neg h2, if_neg h3, if_pos h4]
        have ha := parseRange_advance regex pos
        exact ih (parseRange regex pos).2 (by (try dsimp only); omega)
      by_cases h5 : isQuantifierStart c
      · simp only [if_neg h1, if_neg h2, if_neg h3, if_neg h4, if_pos h5]
        have ha := parseQuantifier_advance regex pos
        exact ih (parseQuantifier regex pos).2 (by (try dsimp only); omega)
      by_cases h6 : c = '\\'
      · simp only [if_neg h1, if_neg h2, if_neg h3, if_neg h4, if_neg h5,
          if_pos h6]
        have ha := parseEscape_advance regex pos
        exact ih (parseEscape regex pos).2 (by (try dsimp only); omega)
      by_cases h7 : c = '|'
      · simp only [if_neg h1, if_neg h2, if_neg h3, if_neg h4, if_neg h5,
          if_neg h6, if_pos h7]
        exact ih (pos + 1) (by (try dsimp only); omega)
      · simp only [if_neg h1, if_neg h2, if_neg h3, if_neg h4, if_neg h5,
          if_neg h6, if_neg h7]
        exact ih (pos + 1) (by (try dsimp only); omega)

/-- Any two sufficient fuel values give the top-level loop the same result:
the loop runs to completion and its outcome does not depend on the fuel.
This is the termination argument for the source's `while` loop. -/
theorem mainLoopF_irrel (regex : List Char) :
    ∀ fuel1 fuel2 pos, regex.length - pos ≤ fuel1 →
      regex.length - pos ≤ fuel2 →
      mainLoopF regex fuel1 pos = mainLoopF regex fuel2 pos := by
  intro fuel1
  induction fuel1 with
  | zero =>
    intro fuel2 pos h1 h2
    cases fuel2 with
    | zero => rfl
    | succ m =>
      simp only [mainLoopF]
      rw [jsGet_none_of_le (by (try dsimp only); omega)]
  | succ n ih =>
    intro fuel2 pos h1 h2
    cases fuel2 with
    | zero =>
      simp only [mainLoopF]
      rw [jsGet_none_of_le (by (try dsimp only); omega)]
    | succ m =>
      simp only [mainLoopF]
      cases hg : jsGet regex pos with
      | none => rfl
      | some c =>
        have hlt := lt_of_jsGet_some hg
        by_cases hc1 : isAnchor c
        · simp only [if_pos hc1]
          rw [ih m (pos + 1) (by (try dsimp only); omega) (by (try dsimp only); omega)]
        by_cases hc2 : isMetaChar c
        · simp only [if_neg hc1, if_pos hc2]
          rw [ih m (pos + 1) (by (try dsimp only); omega) (by (try dsimp only); omega)]
        by_cases hc3 : c = '('
        · simp only [if_neg hc1, if_neg hc2, if_pos hc3]
          have ha := parseGroup_advance regex pos
          rw [ih m (parseGroup regex pos).2 (by (try dsimp only); omega) (by (try dsimp only); omega)]
        by_cases hc4 : c = '['
        · simp only [if_neg hc1, if_neg hc2, if_neg hc3, if_pos hc4]
          have ha := parseRange_advance regex pos
          rw [ih m (parseRange regex pos).2 (by (try dsimp only); omega) (by (try dsimp only); omega)]
        by_cases hc5 : isQuantifierStart c
        · simp only [if_neg hc1, if_neg hc2, if_neg hc3, if_neg hc4,
            if_pos hc5]
          have ha := parseQuantifier_advance regex pos
          rw [ih m (parseQuantifier regex pos).2 (by (try dsimp only); omega) (by (try dsimp only); omega)]
        by_cases hc6 : c = '\\'
        · simp only [if_neg hc1, if_neg hc2, if_neg hc3, if_neg hc4,
            if_neg hc5, if_pos hc6]
          have ha := parseEscape_advance regex pos
          rw [ih m (parseEscape regex pos).2 (by (try dsimp only); omega) (by (try dsimp only); omega)]
        by_cases hc7 : c = '|'
        · simp only [if_neg hc1, if_neg hc2, if_neg hc3, if_neg hc4,
            if_neg hc5, if_neg hc6, if_pos hc7]
          rw [ih m (pos + 1) (by (try dsimp only); omega) (by (try dsimp only); omega)]
        · simp only [if_neg hc1, if_neg hc2, if_neg hc3, if_neg hc4,
            if_neg hc5, if_neg hc6, if_neg hc7]
          rw [ih m (pos + 1) (by (try dsimp only); omega) (by (try dsimp only); omega)]

/-! ### Per-token invariants -/

theorem TokOK.widen {regex : List Char} {lo hi lo2 hi2 : Nat} {t : Token}
    (h : TokOK regex lo hi t) (h1 : lo2 ≤ lo) (h2 : hi ≤ hi2) :
    TokOK regex lo2 hi2 t := by
  obtain ⟨a, b, c⟩ := h
  exact ⟨by (try dsimp only); omega, by (try dsimp only); omega, c⟩

theorem rangeLoopF_tokOK (regex : List Char) :
    ∀ fuel pos t, t ∈ (rangeLoopF regex fuel pos).1 →
      TokOK regex pos (rangeLoopF regex fuel pos).2 t ∧ notLa t := by
  intro fuel
  induction fuel with
  | zero => intro pos t ht; simp [rangeLoopF] at ht
  | succ n ih =>
    intro pos t ht
    simp only [rangeLoopF] at ht ⊢
    cases hg : jsGet regex pos with
    | none => rw [hg] at ht; simp at ht
    | some c =>
      rw [hg] at ht
      by_cases hc : c = ']'
      · simp [hc] at ht
      · simp only [if_neg hc] at ht ⊢
        rcases List.mem_cons.mp ht with h | h
        · subst h
          refine ⟨⟨le_refl _, ?_, ?_⟩, by simp [notLa]⟩
          · have := rangeLoopF_le regex n (pos + 1); (try dsimp only); omega
          · intro _; exact ⟨c, hg, rfl⟩
        · have := (ih (pos + 1) t h).1
          exact ⟨this.widen (by (try dsimp only); omega) (le_refl _), (ih (pos + 1) t h).2⟩

theorem parseRange_tokOK (regex : List Char) (pos : Nat)
    (hopen : jsGet regex pos = some '[') :
    ∀ t ∈ (parseRange regex pos).1,
      TokOK regex pos (parseRange regex pos).2 t ∧ notLa t := by
  intro t ht
  simp only [parseRange, rangeLoop] at ht ⊢
  have hle := rangeLoopF_le regex (regex.length - (pos + 1)) (pos + 1)
  rcases List.mem_cons.mp ht with h | h
  · subst h
    refine ⟨⟨le_refl _, by (try dsimp only); omega, ?_⟩, by simp [notLa]⟩
    intro _; exact ⟨'[', hopen, rfl⟩
  · rcases List.mem_append.mp h with h2 | h2
    · have := rangeLoopF_tokOK regex (regex.length - (pos + 1)) (pos + 1) t h2
      exact ⟨this.1.widen (by (try dsimp only); omega) (by (try dsimp only); omega), this.2⟩
    · simp only [List.mem_singleton] at h2
      subst h2
      refine ⟨⟨by (try dsimp only); omega, by (try dsimp only); omega, ?_⟩, by simp [notLa]⟩
      intro hk; simp [singleCharKind] at hk

theorem parseQuantifier_tokOK (regex : List Char) (pos : Nat) :
    TokOK regex pos (parseQuantifier regex pos).2 (parseQuantifier regex pos).1
      ∧ notLa (parseQuantifier regex pos).1 := by
  have hle := quantLoopF_le regex (regex.length - (pos + 1)) (pos + 1)
  simp only [parseQuantifier, quantLoop]
  refine ⟨⟨by (try dsimp only); omega, by (try dsimp only); omega, ?_⟩, by simp [notLa]⟩
  intro hk; simp [singleCharKind] at hk

theorem parseEscape_tokOK (regex : List Char) (pos : Nat) :
    TokOK regex pos (parseEscape regex pos).2 (parseEscape regex pos).1
      ∧ notLa (parseEscape regex pos).1 := by
  simp only [parseEscape]
  split
  · simp only [parseUnicodeEscape]
    refine ⟨⟨by (try dsimp only); omega, by (try dsimp only); omega, ?_⟩, by simp [notLa]⟩
    intro hk; simp [singleCharKind] at hk
  · split
    · simp only [parseHexEscape]
      refine ⟨⟨by (try dsimp only); omega, by (try dsimp only); omega, ?_⟩, by simp [notLa]⟩
      intro hk; simp [singleCharKind] at hk
    · split
      · simp only [parseBackreference]
        refine ⟨⟨by (try dsimp only); omega, by (try dsimp only); omega, ?_⟩, by simp [notLa]⟩
        intro hk; simp [singleCharKind] at hk
      · refine ⟨⟨by (try dsimp only); omega, by (try dsimp only); omega, ?_⟩, by simp [notLa]⟩
        intro hk; simp [singleCharKind] at hk

theorem gcLoopF_tokOK (regex : List Char) :
    ∀ fuel pos t, t ∈ (gcLoopF regex fuel pos).1 →
      TokOK regex pos (gcLoopF regex fuel pos).2 t ∧ notLa t := by
  intro fuel
  induction fuel with
  | zero => intro pos t ht; simp [gcLoopF] at ht
  | succ n ih =>
    intro pos t ht
    simp only [gcLoopF] at ht ⊢
    cases hg : jsGet regex pos with
    | none => rw [hg] at ht; simp at ht
    | some c =>
      rw [hg] at ht
      by_cases h1 : c = ')'
      · simp [h1] at ht
      simp only [if_neg h1] at ht ⊢
      by_cases h2 : isAnchor c
      · simp only [if_pos h2] at ht ⊢
        rcases List.mem_cons.mp ht with h | h
        · subst h
          refine ⟨⟨le_refl _, ?_, ?_⟩, by simp [notLa]⟩
          · have := gcLoopF_le regex n (pos + 1); (try dsimp only); omega
          · intro _; exact ⟨c, hg, rfl⟩
        · exact ⟨((ih (pos + 1) t h).1).widen (by (try dsimp only); omega) (le_refl _),
            (ih (pos + 1) t h).2⟩
      simp only [if_neg h2] at ht ⊢
      by_cases h3 : isMetaChar c
      · simp only [if_pos h3] at ht ⊢
        rcases List.mem_cons.mp ht with h | h
        · subst h
          refine ⟨⟨le_refl _, ?_, ?_⟩, by simp [notLa]⟩
          · have := gcLoopF_le regex n (pos + 1); (try dsimp only); omega
          · intro _; exact ⟨c, hg, rfl⟩
        · exact ⟨((ih (pos + 1) t h).1).widen (by (try dsimp only); omega) (le_refl _),
            (ih (pos + 1) t h).2⟩
      simp only [if_neg h3] at ht ⊢
      by_cases h4 : c = '['
      · simp only [if_pos h4] at ht ⊢
        subst h4
        rcases List.mem_append.mp ht with h | h
        · have hb := parseRange_tokOK regex pos hg t h
          have := gcLoopF_le regex n (parseRange regex pos).2
          exact ⟨hb.1.widen (le_refl _) (by (try dsimp only); omega), hb.2⟩
        · have hb := ih (parseRange regex pos).2 t h
          have ha := parseRange_advance regex pos
          exact ⟨hb.1.widen (by (try dsimp only); omega) (le_refl _), hb.2⟩
      simp only [if_neg h4] at ht ⊢
      by_cases h5 : isQuantifierStart c
      · simp only [if_pos h5] at ht ⊢
        rcases List.mem_cons.mp ht with h | h
        · subst h
          have hb := parseQuantifier_tokOK regex pos
          have := gcLoopF_le regex n (parseQuantifier regex pos).2
          exact ⟨hb.1.widen (le_refl _) (by (try dsimp only); omega), hb.2⟩
        · have hb := ih (parseQuantifier regex pos).2 t h
          have ha := parseQuantifier_advance regex pos
          exact ⟨hb.1.widen (by (try dsimp only); omega) (le_refl _), hb.2⟩
      simp only [if_neg h5] at ht ⊢
      by_cases h6 : c = '\\'
      · simp only [if_pos h6] at ht ⊢
        rcases List.mem_cons.mp ht with h | h
        · subst h
          have hb := parseEscape_tokOK regex pos
          have := gcLoopF_le regex n (parseEscape regex pos).2
          exact ⟨hb.1.widen (le_refl _) (by (try dsimp only); omega), hb.2⟩
        · have hb := ih (parseEscape regex pos).2 t h
          have ha := parseEscape_advance regex pos
          exact ⟨hb.1.widen (by (try dsimp only); omega) (le_refl _), hb.2⟩
      simp only [if_neg h6] at ht ⊢
      by_cases h7 : c = '|'
      · simp only [if_pos h7] at ht ⊢
        rcases List.mem_cons.mp ht with h | h
        · subst h
          refine ⟨⟨le_refl _, ?_, ?_⟩, by simp [notLa]⟩
          · have := gcLoopF_le regex n (pos + 1); (try dsimp only); omega
          · intro _; exact ⟨c, hg, rfl⟩
        · exact ⟨((ih (pos + 1) t h).1).widen (by (try dsimp only); omega) (le_refl _),
            (ih (pos + 1) t h).2⟩
      · simp only [if_neg h7] at ht ⊢
        rcases List.mem_cons.mp ht with h | h
        · subst h
          refine ⟨⟨le_refl _, ?_, ?_⟩, by simp [notLa]⟩
          · have := gcLoopF_le regex n (pos + 1); (try dsimp only); omega
          · intro _; exact ⟨c, hg, rfl⟩
        · exact ⟨((ih (pos + 1) t h).1).widen (by (try dsimp only); omega) (le_refl _),
            (ih (pos + 1) t h).2⟩

theorem pgLoopF_tokOK (regex : List Char) :
    ∀ fuel pos t, t ∈ (pgLoopF regex fuel pos).1 →
      TokOK regex pos (pgLoopF regex fuel pos).2 t ∧ notLa t := by
  intro fuel
  induction fuel with
  | zero => intro pos t ht; simp [pgLoopF] at ht
  | succ n ih =>
    intro pos t ht
    simp only [pgLoopF] at ht ⊢
    cases hg : jsGet regex pos with
    | none => rw [hg] at ht; simp at ht
    | some c =>
      rw [hg] at ht
      by_cases h1 : c = ')'
      · simp [h1] at ht
      simp only [if_neg h1, tokenizeGroupContent] at ht ⊢
      rcases List.mem_append.mp ht with h | h
      · have hb := gcLoopF_tokOK regex (regex.length - pos) pos t h
        have := pgLoopF_le regex n (gcLoopF regex (regex.length - pos) pos).2
        exact ⟨hb.1.widen (le_refl _) (by (try dsimp only); omega), hb.2⟩
      · have hb := ih (gcLoopF regex (regex.length - pos) pos).2 t h
        have ha := gcLoopF_le regex (regex.length - pos) pos
        exact ⟨hb.1.widen (by (try dsimp only); omega) (le_refl _), hb.2⟩

theorem parseGroup_tokOK (regex : List Char) (pos : Nat)
    (hopen : jsGet regex pos = some '(') :
    ∀ t ∈ (parseGroup regex pos).1,
      TokOK regex pos (parseGroup regex pos).2 t := by
  intro t ht
  have hb := groupPre_bounds regex pos
  have hle := pgLoopF_le regex (regex.length - (groupPre regex pos).2)
    (groupPre regex pos).2
  simp only [parseGroup] at ht ⊢
  rcases List.mem_cons.mp ht with h | h
  · subst h
    refine ⟨le_refl _, by (try dsimp only); omega, fun _ => ⟨'(', hopen, rfl⟩⟩
  rcases List.mem_append.mp h with h2 | h2
  · rcases List.mem_append.mp h2 with h3 | h3
    · have hp := groupPre_toks regex pos t h3
      refine ⟨by omega, by omega, ?_⟩
      intro hk
      rw [hp.2.1] at hk
      exact Bool.noConfusion hk
    · have hp := pgLoopF_tokOK regex (regex.length - (groupPre regex pos).2)
        (groupPre regex pos).2 t h3
      exact hp.1.widen (by omega) (by omega)
  · simp only [List.mem_singleton] at h2
    subst h2
    refine ⟨by (try dsimp only); omega, by (try dsimp only); omega, ?_⟩
    intro hk; simp [singleCharKind] at hk


theorem mainLoopF_tokOK (regex : List Char) :
    ∀ fuel pos t, t ∈ (mainLoopF regex fuel pos).1 →
      TokOK regex pos (mainLoopF regex fuel pos).2 t := by
  intro fuel
  induction fuel with
  | zero => intro pos t ht; simp [mainLoopF] at ht
  | succ n ih =>
    intro pos t ht
    simp only [mainLoopF] at ht ⊢
    cases hg : jsGet regex pos with
    | none => rw [hg] at ht; simp at ht
    | some c =>
      rw [hg] at ht
      by_cases h1 : isAnchor c
      · simp only [if_pos h1] at ht ⊢
        rcases List.mem_cons.mp ht with h | h
        · subst h
          refine ⟨le_refl _, ?_, fun _ => ⟨c, hg, rfl⟩⟩
          have := mainLoopF_le regex n (pos + 1); (try dsimp only); omega
        · exact (ih (pos + 1) t h).widen (by (try dsimp only); omega) (le_refl _)
      simp only [if_neg h1] at ht ⊢
      by_cases h2 : isMetaChar c
      · simp only [if_pos h2] at ht ⊢
        rcases List.mem_cons.mp ht with h | h
        · subst h
          refine ⟨le_refl _, ?_, fun _ => ⟨c, hg, rfl⟩⟩
          have := mainLoopF_le regex n (pos + 1); (try dsimp only); omega
        · exact (ih (pos + 1) t h).widen (by (try dsimp only); omega) (le_refl _)
      simp only [if_neg h2] at ht ⊢
      by_cases h3 : c = '('
      · simp only [if_pos h3] at ht ⊢
        subst h3
        rcases List.mem_append.mp ht with h | h
        · have hb := parseGroup_tokOK regex pos hg t h
          have := mainLoopF_le regex n (parseGroup regex pos).2
          exact hb.widen (le_refl _) (by (try dsimp only); omega)
        · have hb := ih (parseGroup regex pos).2 t h
          have ha := parseGroup_advance regex pos
          exact hb.widen (by (try dsimp only); omega) (le_refl _)
      simp only [if_neg h3] at ht ⊢
      by_cases h4 : c = '['
      · simp only [if_pos h4] at ht ⊢
        subst h4
        rcases List.mem_append.mp ht with h | h
        · have hb := parseRange_tokOK regex pos hg t h
          have := mainLoopF_le regex n (parseRange regex pos).2
          exact hb.1.widen (le_refl _) (by (try dsimp only); omega)
        · have hb := ih (parseRange regex pos).2 t h
          have ha := parseRange_advance regex pos
          exact hb.widen (by (try dsimp only); omega) (le_refl _)
      simp only [if_neg h4] at ht ⊢
      by_cases h5 : isQuantifierStart c
      · simp only [if_pos h5] at ht ⊢
        rcases List.mem_cons.mp ht with h | h
        · subst h
          have hb := parseQuantifier_tokOK regex pos
          have := mainLoopF_le regex n (parseQuantifier regex pos).2
          exact hb.1.widen (le_refl _) (by (try dsimp only); omega)
        · have hb := ih (parseQuantifier regex pos).2 t h
          have ha := parseQuantifier_advance regex pos
          exact hb.widen (by (try dsimp only); omega) (le_refl _)
      simp only [if_neg h5] at ht ⊢
      by_cases h6 : c = '\\'
      · simp only [if_pos h6] at ht ⊢
        rcases List.mem_cons.mp ht with h | h
        · subst h
          have hb := parseEscape_tokOK regex pos
          have := mainLoopF_le regex n (parseEscape regex pos).2
          exact hb.1.widen (le_refl _) (by (try dsimp only); omega)
        · have hb := ih (parseEscape regex pos).2 t h
          have ha := parseEscape_advance regex pos
          exact hb.widen (by (try dsimp only); omega) (le_refl _)
      simp only [if_neg h6] at ht ⊢
      by_cases h7 : c = '|'
      · simp only [if_pos h7] at ht ⊢
        rcases List.mem_cons.mp ht with h | h
        · subst h
          refine ⟨le_refl _, ?_, fun _ => ⟨c, hg, rfl⟩⟩
          have := mainLoopF_le regex n (pos + 1); (try dsimp only); omega
        · exact (ih (pos + 1) t h).widen (by (try dsimp only); omega) (le_refl _)
      · simp only [if_neg h7] at ht ⊢
        rcases List.mem_cons.mp ht with h | h
        · subst h
          refine ⟨le_refl _, ?_, fun _ => ⟨c, hg, rfl⟩⟩
          have := mainLoopF_le regex n (pos + 1); (try dsimp only); omega
        · exact (ih (pos + 1) t h).widen (by (try dsimp only); omega) (le_refl _)

/-! ### Token positions are non-decreasing in emission order -/

theorem rangeLoopF_pairwise (regex : List Char) :
    ∀ fuel pos, ((rangeLoopF regex fuel pos).1).Pairwise posLE := by
  intro fuel
  induction fuel with
  | zero => intro pos; simp [rangeLoopF]
  | succ n ih =>
    intro pos
    simp only [rangeLoopF]
    cases hg : jsGet regex pos with
    | none => simp
    | some c =>
      by_cases hc : c = ']'
      · simp [hc]
      · simp only [if_neg hc]
        refine List.pairwise_cons.mpr ⟨?_, ih (pos + 1)⟩
        intro y hy
        have := (rangeLoopF_tokOK regex n (pos + 1) y hy).1.1
        simp only [posLE]
        (try dsimp only); omega

theorem parseRange_pairwise (regex : List Char) (pos : Nat) :
    ((parseRange regex pos).1).Pairwise posLE := by
  simp only [parseRange, rangeLoop]
  refine List.pairwise_cons.mpr ⟨?_, ?_⟩
  · intro y hy
    rcases List.mem_append.mp hy with h | h
    · have := (rangeLoopF_tokOK regex (regex.length - (pos + 1)) (pos + 1)
        y h).1.1
      simp only [posLE]; (try dsimp only); omega
    · simp only [List.mem_singleton] at h
      subst h
      have := rangeLoopF_le regex (regex.length - (pos + 1)) (pos + 1)
      simp only [posLE]; (try dsimp only); omega
  · refine List.pairwise_append.mpr
      ⟨rangeLoopF_pairwise regex _ (pos + 1), List.pairwise_singleton _ _, ?_⟩
    intro a ha b hb
    simp only [List.mem_singleton] at hb
    subst hb
    have := (rangeLoopF_tokOK regex (regex.length - (pos + 1)) (pos + 1)
      a ha).1.2.1
    simp only [posLE]; (try dsimp only); omega

theorem gcLoopF_pairwise (regex : List Char) :
    ∀ fuel pos, ((gcLoopF regex fuel pos).1).Pairwise posLE := by
  intro fuel
  induction fuel with
  | zero => intro pos; simp [gcLoopF]
  | succ n ih =>
    intro pos
    simp only [gcLoopF]
    cases hg : jsGet regex pos with
    | none => simp
    | some c =>
      by_cases h1 : c = ')'
      · simp [h1]
      simp only [if_neg h1]
      by_cases h2 : isAnchor c
      · simp only [if_pos h2]
        refine List.pairwise_cons.mpr ⟨?_, ih (pos + 1)⟩
        intro y hy
        have := (gcLoopF_tokOK regex n (pos + 1) y hy).1.1
        simp only [posLE]; (try dsimp only); omega
      simp only [if_neg h2]
      by_cases h3 : isMetaChar c
      · simp only [if_pos h3]
        refine List.pairwise_cons.mpr ⟨?_, ih (pos + 1)⟩
        intro y hy
        have := (gcLoopF_tokOK regex n (pos + 1) y hy).1.1
        simp only [posLE]; (try dsimp only); omega
      simp only [if_neg h3]
      by_cases h4 : c = '['
      · simp only [if_pos h4]
        refine List.pairwise_append.mpr
          ⟨parseRange_pairwise regex pos, ih (parseRange regex pos).2, ?_⟩
        intro a ha b hb
        have hA := (parseRange_tokOK regex pos (h4 ▸ hg) a ha).1.2.1
        have hB := (gcLoopF_tokOK regex n (parseRange regex pos).2 b hb).1.1
        simp only [posLE]; omega
      simp only [if_neg h4]
      by_cases h5 : isQuantifierStart c
      · simp only [if_pos h5]
        refine List.pairwise_cons.mpr ⟨?_, ih (parseQuantifier regex pos).2⟩
        intro y hy
        have hA := (parseQuantifier_tokOK regex pos).1.2.1
        have hB := (gcLoopF_tokOK regex n (parseQuantifier regex pos).2
          y hy).1.1
        simp only [posLE]; omega
      simp only [if_neg h5]
      by_cases h6 : c = '\\'
      · simp only [if_pos h6]
        refine List.pairwise_cons.mpr ⟨?_, ih (parseEscape regex pos).2⟩
        intro y hy
        have hA := (parseEscape_tokOK regex pos).1.2.1
        have hB := (gcLoopF_tokOK regex n (parseEscape regex pos).2 y hy).1.1
        simp only [posLE]; omega
      simp only [if_neg h6]
      by_cases h7 : c = '|'
      · simp only [if_pos h7]
        refine List.pairwise_cons.mpr ⟨?_, ih (pos + 1)⟩
        intro y hy
        have := (gcLoopF_tokOK regex n (pos + 1) y hy).1.1
        simp only [posLE]; (try dsimp only); omega
      · simp only [if_neg h7]
        refine List.pairwise_cons.mpr ⟨?_, ih (pos + 1)⟩
        intro y hy
        have := (gcLoopF_tokOK regex n (pos + 1) y hy).1.1
        simp only [posLE]; (try dsimp only); omega

theorem pgLoopF_pairwise (regex : List Char) :
    ∀ fuel pos, ((pgLoopF regex fuel pos).1).Pairwise posLE := by
  intro fuel
  induction fuel with
  | zero => intro pos; simp [pgLoopF]
  | succ n ih =>
    intro pos
    simp only [pgLoopF]
    cases hg : jsGet regex pos with
    | none => simp
    | some c =>
      by_cases h1 : c = ')'
      · simp [h1]
      simp only [if_neg h1, tokenizeGroupContent]
      refine List.pairwise_append.mpr
        ⟨gcLoopF_pairwise regex _ pos,
          ih (gcLoopF regex (regex.length - pos) pos).2, ?_⟩
      intro a ha b hb
      have hA := (gcLoopF_tokOK regex (regex.length - pos) pos a ha).1.2.1
      have hB := (pgLoopF_tokOK regex n
        (gcLoopF regex (regex.length - pos) pos).2 b hb).1.1
      simp only [posLE]; omega

theorem parseGroup_pairwise (regex : List Char) (pos : Nat) :
    ((parseGroup regex pos).1).Pairwise posLE := by
  have hb := groupPre_bounds regex pos
  have hle := pgLoopF_le regex (regex.length - (groupPre regex pos).2)
    (groupPre regex pos).2
  simp only [parseGroup]
  refine List.pairwise_cons.mpr ⟨?_, ?_⟩
  · intro y hy
    rcases List.mem_append.mp hy with h | h
    · rcases List.mem_append.mp h with h2 | h2
      · have := (groupPre_toks regex pos y h2).1
        simp only [posLE]; (try dsimp only); omega
      · have := (pgLoopF_tokOK regex (regex.length - (groupPre regex pos).2)
          (groupPre regex pos).2 y h2).1.1
        simp only [posLE]; (try dsimp only); omega
    · simp only [List.mem_singleton] at h
      subst h
      simp only [posLE]; (try dsimp only); omega
  · refine List.pairwise_append.mpr ⟨?_, ?_, ?_⟩
    · refine List.pairwise_append.mpr ⟨?_, ?_, ?_⟩
      · rcases hp : (groupPre regex pos).1 with _ | ⟨a, tl⟩
        · exact List.Pairwise.nil
        · have h1 : ∀ t ∈ (groupPre regex pos).1, t.position = pos + 2 :=
            fun t ht => (groupPre_toks regex pos t ht).1
          rw [hp] at h1
          cases tl with
          | nil => exact List.pairwise_singleton _ _
          | cons b tl2 =>
            refine List.pairwise_cons.mpr ⟨?_, ?_⟩
            · intro y hy
              have ha := h1 a (by simp)
              have hyy := h1 y (by simp [hy])
              simp only [posLE]; omega
            · cases tl2 with
              | nil =>
                exact List.pairwise_singleton _ _
              | cons d tl3 =>
                exfalso
                have hlen : ((groupPre regex pos).1).length ≤ 1 := by
                  simp only [groupPre]
                  split
                  · split
                    · simp
                    · split <;> simp
                  · simp
                rw [hp] at hlen
                simp at hlen
      · exact pgLoopF_pairwise regex _ _
      · intro a ha b hb
        have hA := (groupPre_toks regex pos a ha).2.2.2
        have hB := (pgLoopF_tokOK regex (regex.length - (groupPre regex pos).2)
          (groupPre regex pos).2 b hb).1.1
        simp only [posLE]; omega
    · exact List.pairwise_singleton _ _
    · intro a ha b hb
      simp only [List.mem_singleton] at hb
      subst hb
      rcases List.mem_append.mp ha with h2 | h2
      · have h3 := (groupPre_toks regex pos a h2).2.2.2
        simp only [posLE]; (try dsimp only); omega
      · have h3 := (pgLoopF_tokOK regex (regex.length - (groupPre regex pos).2)
          (groupPre regex pos).2 a h2).1.2.1
        simp only [posLE]; (try dsimp only); omega

theorem mainLoopF_pairwise (regex : List Char) :
    ∀ fuel pos, ((mainLoopF regex fuel pos).1).Pairwise posLE := by
  intro fuel
  induction fuel with
  | zero => intro pos; simp [mainLoopF]
  | succ n ih =>
    intro pos
    simp only [mainLoopF]
    cases hg : jsGet regex pos with
    | none => simp
    | some c =>
      by_cases h1 : isAnchor c
      · simp only [if_pos h1]
        refine List.pairwise_cons.mpr ⟨?_, ih (pos + 1)⟩
        intro y hy
        have := (mainLoopF_tokOK regex n (pos + 1) y hy).1
        simp only [posLE]; (try dsimp only); omega
      simp only [if_neg h1]
      by_cases h2 : isMetaChar c
      · simp only [if_pos h2]
        refine List.pairwise_cons.mpr ⟨?_, ih (pos + 1)⟩
        intro y hy
        have := (mainLoopF_tokOK regex n (pos + 1) y hy).1
        simp only [posLE]; (try dsimp only); omega
      simp only [if_neg h2]
      by_cases h3 : c = '('
      · simp only [if_pos h3]
        refine List.pairwise_append.mpr
          ⟨parseGroup_pairwise regex pos, ih (parseGroup regex pos).2, ?_⟩
        intro a ha b hb
        have hA := (parseGroup_tokOK regex pos (h3 ▸ hg) a ha).2.1
        have hB := (mainLoopF_tokOK regex n (parseGroup regex pos).2 b hb).1
        simp only [posLE]; omega
      simp only [if_neg h3]
      by_cases h4 : c = '['
      · simp only [if_pos h4]
        refine List.pairwise_append.mpr
          ⟨parseRange_pairwise regex pos, ih (parseRange regex pos).2, ?_⟩
        intro a ha b hb
        have hA := (parseRange_tokOK regex pos (h4 ▸ hg) a ha).1.2.1
        have hB := (mainLoopF_tokOK regex n (parseRange regex pos).2 b hb).1
        simp only [posLE]; omega
      simp only [if_neg h4]
      by_cases h5 : isQuantifierStart c
      · simp only [if_pos h5]
        refine List.pairwise_cons.mpr ⟨?_, ih (parseQuantifier regex pos).2⟩
        intro y hy
        have hA := (parseQuantifier_tokOK regex pos).1.2.1
        have hB := (mainLoopF_tokOK regex n (parseQuantifier regex pos).2
          y hy).1
        simp only [posLE]; omega
      simp only [if_neg h5]
      by_cases h6 : c = '\\'
      · simp only [if_pos h6]
        refine List.pairwise_cons.mpr ⟨?_, ih (parseEscape regex pos).2⟩
        intro y hy
        have hA := (parseEscape_tokOK regex pos).1.2.1
        have hB := (mainLoopF_tokOK regex n (parseEscape regex pos).2 y hy).1
        simp only [posLE]; omega
      simp only [if_neg h6]
      by_cases h7 : c = '|'
      · simp only [if_pos h7]
        refine List.pairwise_cons.mpr ⟨?_, ih (pos + 1)⟩
        intro y hy
        have := (mainLoopF_tokOK regex n (pos + 1) y hy).1
        simp only [posLE]; (try dsimp only); omega
      · simp only [if_neg h7]
        refine List.pairwise_cons.mpr ⟨?_, ih (pos + 1)⟩
        intro y hy
        have := (mainLoopF_tokOK regex n (pos + 1) y hy).1
        simp only [posLE]; (try dsimp only); omega

/-! ### Character coverage: which input characters reach some token's text -/

theorem joinVals_cons (t : Token) (ts : List Token) :
    joinVals (t :: ts) = t.value ++ joinVals ts := by
  simp [joinVals]

theorem joinVals_append (a b : List Token) :
    joinVals (a ++ b) = joinVals a ++ joinVals b := by
  simp [joinVals]

theorem quantLoopF_cover (regex : List Char) :
    ∀ fuel pos i c, pos ≤ i → i < (quantLoopF regex fuel pos).2 →
      jsGet regex i = some c → c ∈ (quantLoopF regex fuel pos).1 := by
  intro fuel
  induction fuel with
  | zero =>
    intro pos i c h1 h2 _
    simp only [quantLoopF] at h2
    omega
  | succ n ih =>
    intro pos i c h1 h2 hgi
    simp only [quantLoopF] at h2 ⊢
    cases hg : jsGet regex pos with
    | none => rw [hg] at h2; simp only at h2; omega
    | some c0 =>
      rw [hg] at h2
      by_cases hc : c0 = rbrace
      · simp only [if_pos hc] at h2; omega
      · simp only [if_neg hc] at h2 ⊢
        rcases Nat.eq_or_lt_of_le h1 with he | hlt
        · subst he
          rw [hg] at hgi
          simp only [Option.some.injEq] at hgi
          subst hgi
          exact List.mem_cons_self _ _
        · exact List.mem_cons_of_mem _ (ih (pos + 1) i c (by omega) h2 hgi)

theorem parseQuantifier_cover (regex : List Char) (pos : Nat)
    (hq : jsGet regex pos = some lbrace) :
    ∀ i c, pos ≤ i → i < (parseQuantifier regex pos).2 →
      jsGet regex i = some c →
        c = lbrace ∨ c ∈ (parseQuantifier regex pos).1.value := by
  intro i c h1 h2 hgi
  simp only [parseQuantifier, quantLoop] at h2 ⊢
  try dsimp only at h2 ⊢
  rcases Nat.eq_or_lt_of_le h1 with he | hlt
  · subst he
    rw [hq] at hgi
    simp only [Option.some.injEq] at hgi
    exact Or.inl hgi.symm
  · right
    by_cases hstop :
        i < (quantLoopF regex (regex.length - (pos + 1)) (pos + 1)).2
    · exact List.mem_append.mpr (Or.inl
        (quantLoopF_cover regex _ (pos + 1) i c (by omega) hstop hgi))
    · have hi :
          i = (quantLoopF regex (regex.length - (pos + 1)) (pos + 1)).2 := by
        omega
      subst hi
      rcases quantLoopF_stop regex (regex.length - (pos + 1)) (pos + 1)
          (by omega) with h | h
      · rw [h] at hgi; exact Option.noConfusion hgi
      · rw [h] at hgi
        simp only [Option.some.injEq] at hgi
        subst hgi
        exact List.mem_append.mpr (Or.inr (List.mem_singleton.mpr rfl))

theorem rangeLoopF_cover (regex : List Char) :
    ∀ fuel pos i c, pos ≤ i → i < (rangeLoopF regex fuel pos).2 →
      jsGet regex i = some c → c ∈ joinVals (rangeLoopF regex fuel pos).1 := by
  intro fuel
  induction fuel with
  | zero =>
    intro pos i c h1 h2 _
    simp only [rangeLoopF] at h2
    omega
  | succ n ih =>
    intro pos i c h1 h2 hgi
    simp only [rangeLoopF] at h2 ⊢
    cases hg : jsGet regex pos with
    | none => rw [hg] at h2; simp only at h2; omega
    | some c0 =>
      rw [hg] at h2
      by_cases hc : c0 = ']'
      · simp only [if_pos hc] at h2; omega
      · simp only [if_neg hc] at h2 ⊢
        try dsimp only at h2
        rw [joinVals_cons]
        rcases Nat.eq_or_lt_of_le h1 with he | hlt
        · subst he
          rw [hg] at hgi
          simp only [Option.some.injEq] at hgi
          subst hgi
          exact List.mem_append.mpr (Or.inl (List.mem_singleton.mpr rfl))
        · exact List.mem_append.mpr (Or.inr
            (ih (pos + 1) i c (by omega) h2 hgi))

theorem parseRange_cover (regex : List Char) (pos : Nat)
    (hopen : jsGet regex pos = some '[') :
    ∀ i c, pos ≤ i → i < (parseRange regex pos).2 →
      jsGet regex i = some c → c ∈ joinVals (parseRange regex pos).1 := by
  intro i c h1 h2 hgi
  simp only [parseRange, rangeLoop] at h2 ⊢
  try dsimp only at h2 ⊢
  simp only [joinVals_append, joinVals_cons, List.mem_append,
    List.mem_singleton]
  rcases Nat.eq_or_lt_of_le h1 with he | hlt
  · subst he
    rw [hopen] at hgi
    simp only [Option.some.injEq] at hgi
    exact Or.inl (Or.inl hgi.symm)
  · by_cases hstop :
        i < (rangeLoopF regex (regex.length - (pos + 1)) (pos + 1)).2
    · exact Or.inl (Or.inr
        (rangeLoopF_cover regex _ (pos + 1) i c (by omega) hstop hgi))
    · have hi :
          i = (rangeLoopF regex (regex.length - (pos + 1)) (pos + 1)).2 := by
        omega
      subst hi
      rcases rangeLoopF_stop regex (regex.length - (pos + 1)) (pos + 1)
          (by omega) with h | h
      · rw [h] at hgi; exact Option.noConfusion hgi
      · rw [h] at hgi
        simp only [Option.some.injEq] at hgi
        exact Or.inr (Or.inl hgi.symm)

theorem parseEscape_cover (regex : List Char) (pos : Nat)
    (hbs : jsGet regex pos = some '\\') :
    ∀ i c, pos ≤ i → i < (parseEscape regex pos).2 →
      jsGet regex i = some c → c ∈ (parseEscape regex pos).1.value := by
  intro i c h1 h2 hgi
  simp only [parseEscape] at h2 ⊢
  split at h2 <;> rename_i hu
  · rw [if_pos hu]
    simp only [parseUnicodeEscape] at h2 ⊢
    try dsimp only at h2 ⊢
    have : i = pos ∨ i = pos + 1 ∨ i = pos + 2 ∨ i = pos + 3 ∨ i = pos + 4 ∨
        i = pos + 5 := by omega
    rcases this with h | h | h | h | h | h <;> subst h
    · rw [hbs] at hgi
      simp only [Option.some.injEq] at hgi
      subst hgi
      simp
    · rw [hu] at hgi
      simp only [Option.some.injEq] at hgi
      subst hgi
      simp
    · rw [show pos + 1 + 1 = pos + 2 by omega, hgi]
      simp [jsStr]
    · rw [show pos + 1 + 2 = pos + 3 by omega, hgi]
      simp [jsStr]
    · rw [show pos + 1 + 3 = pos + 4 by omega, hgi]
      simp [jsStr]
    · rw [show pos + 1 + 4 = pos + 5 by omega, hgi]
      simp [jsStr]
  · split at h2 <;> rename_i hx
    · rw [if_neg hu, if_pos hx]
      simp only [parseHexEscape] at h2 ⊢
      try dsimp only at h2 ⊢
      have : i = pos ∨ i = pos + 1 ∨ i = pos + 2 ∨ i = pos + 3 := by omega
      rcases this with h | h | h | h <;> subst h
      · rw [hbs] at hgi
        simp only [Option.some.injEq] at hgi
        subst hgi
        simp
      · rw [hx] at hgi
        simp only [Option.some.injEq] at hgi
        subst hgi
        simp
      · rw [show pos + 1 + 1 = pos + 2 by omega, hgi]
        simp [jsStr]
      · rw [show pos + 1 + 2 = pos + 3 by omega, hgi]
        simp [jsStr]
    · split at h2 <;> rename_i hd
      · rw [if_neg hu, if_neg hx, if_pos hd]
        simp only [parseBackreference] at h2 ⊢
        try dsimp only at h2 ⊢
        have : i = pos ∨ i = pos + 1 := by omega
        rcases this with h | h <;> subst h
        · rw [hbs] at hgi
          simp only [Option.some.injEq] at hgi
          subst hgi
          simp
        · rw [hgi]
          simp [jsStr]
      · rw [if_neg hu, if_neg hx, if_neg hd]
        try dsimp only at h2 ⊢
        have : i = pos ∨ i = pos + 1 := by omega
        rcases this with h | h <;> subst h
        · rw [hbs] at hgi
          simp only [Option.some.injEq] at hgi
          subst hgi
          simp
        · rw [hgi]
          simp [jsStr]

theorem groupPre_cover (regex : List Char) (pos : Nat) :
    ∀ i c, pos + 1 ≤ i → i < (groupPre regex pos).2 →
      jsGet regex i = some c →
        c = '?' ∨ c ∈ joinVals (groupPre regex pos).1 := by
  intro i c h1 h2 hgi
  simp only [groupPre] at h2 ⊢
  split at h2 <;> rename_i hq
  · split at h2 <;> rename_i he
    · rw [if_pos hq, if_pos he]
      try dsimp only at h2 ⊢
      have : i = pos + 1 ∨ i = pos + 2 := by omega
      rcases this with h | h <;> subst h
      · rw [hq] at hgi
        simp only [Option.some.injEq] at hgi
        exact Or.inl hgi.symm
      · rw [he] at hgi
        simp only [Option.some.injEq] at hgi
        subst hgi
        right
        rw [joinVals_cons]
        simp
    · split at h2 <;> rename_i hb
      · rw [if_pos hq, if_neg he, if_pos hb]
        try dsimp only at h2 ⊢
        have : i = pos + 1 ∨ i = pos + 2 := by omega
        rcases this with h | h <;> subst h
        · rw [hq] at hgi
          simp only [Option.some.injEq] at hgi
          exact Or.inl hgi.symm
        · rw [hb] at hgi
          simp only [Option.some.injEq] at hgi
          subst hgi
          right
          rw [joinVals_cons]
          simp
      · rw [if_pos hq, if_neg he, if_neg hb]
        try dsimp only at h2 ⊢
        have : i = pos + 1 := by omega
        subst this
        rw [hq] at hgi
        simp only [Option.some.injEq] at hgi
        exact Or.inl hgi.symm
  · try dsimp only at h2
    omega

theorem isQuantifierStart_eq {c : Char} (h : isQuantifierStart c = true) :
    c = lbrace := by
  simpa [isQuantifierStart] using h

theorem gcLoopF_cover (regex : List Char) :
    ∀ fuel pos i c, pos ≤ i → i < (gcLoopF regex fuel pos).2 →
      jsGet regex i = some c →
        c = lbrace ∨ c = '?' ∨ c ∈ joinVals (gcLoopF regex fuel pos).1 := by
  intro fuel
  induction fuel with
  | zero =>
    intro pos i c h1 h2 _
    simp only [gcLoopF] at h2
    omega
  | succ n ih =>
    intro pos i c h1 h2 hgi
    simp only [gcLoopF] at h2 ⊢
    cases hg : jsGet regex pos with
    | none => rw [hg] at h2; simp only at h2; omega
    | some c0 =>
      rw [hg] at h2
      by_cases hc1 : c0 = ')'
      · simp only [if_pos hc1] at h2; omega
      simp only [if_neg hc1] at h2 ⊢
      by_cases hc2 : isAnchor c0
      · simp only [if_pos hc2] at h2 ⊢
        try dsimp only at h2
        rw [joinVals_cons]
        rcases Nat.eq_or_lt_of_le h1 with he | hlt
        · subst he
          rw [hg] at hgi
          simp only [Option.some.injEq] at hgi
          subst hgi
          exact Or.inr (Or.inr (List.mem_append.mpr
            (Or.inl (List.mem_singleton.mpr rfl))))
        · rcases ih (pos + 1) i c (by omega) h2 hgi with h | h | h
          · exact Or.inl h
          · exact Or.inr (Or.inl h)
          · exact Or.inr (Or.inr (List.mem_append.mpr (Or.inr h)))
      simp only [if_neg hc2] at h2 ⊢
      by_cases hc3 : isMetaChar c0
      · simp only [if_pos hc3] at h2 ⊢
        try dsimp only at h2
        rw [joinVals_cons]
        rcases Nat.eq_or_lt_of_le h1 with he | hlt
        · subst he
          rw [hg] at hgi
          simp only [Option.some.injEq] at hgi
          subst hgi
          exact Or.inr (Or.inr (List.mem_append.mpr
            (Or.inl (List.mem_singleton.mpr rfl))))
        · rcases ih (pos + 1) i c (by omega) h2 hgi with h | h | h
          · exact Or.inl h
          · exact Or.inr (Or.inl h)
          · exact Or.inr (Or.inr (List.mem_append.mpr (Or.inr h)))
      simp only [if_neg hc3] at h2 ⊢
      by_cases hc4 : c0 = '['
      · simp only [if_pos hc4] at h2 ⊢
        try dsimp only at h2
        rw [joinVals_append]
        subst hc4
        by_cases hin : i < (parseRange regex pos).2
        · exact Or.inr (Or.inr (List.mem_append.mpr
            (Or.inl (parseRange_cover regex pos hg i c h1 hin hgi))))
        · rcases ih (parseRange regex pos).2 i c (by omega) h2 hgi
            with h | h | h
          · exact Or.inl h
          · exact Or.inr (Or.inl h)
          · exact Or.inr (Or.inr (List.mem_append.mpr (Or.inr h)))
      simp only [if_neg hc4] at h2 ⊢
      by_cases hc5 : isQuantifierStart c0
      · simp only [if_pos hc5] at h2 ⊢
        try dsimp only at h2
        rw [joinVals_cons]
        have hq : jsGet regex pos = some lbrace := by
          rw [hg, isQuantifierStart_eq hc5]
        by_cases hin : i < (parseQuantifier regex pos).2
        · rcases parseQuantifier_cover regex pos hq i c h1 hin hgi with h | h
          · exact Or.inl h
          · exact Or.inr (Or.inr (List.mem_append.mpr (Or.inl h)))
        · rcases ih (parseQuantifier regex pos).2 i c (by omega) h2 hgi
            with h | h | h
          · exact Or.inl h
          · exact Or.inr (Or.inl h)
          · exact Or.inr (Or.inr (List.mem_append.mpr (Or.inr h)))
      simp only [if_neg hc5] at h2 ⊢
      by_cases hc6 : c0 = '\\'
      · simp only [if_pos hc6] at h2 ⊢
        try dsimp only at h2
        rw [joinVals_cons]
        subst hc6
        by_cases hin : i < (parseEscape regex pos).2
        · exact Or.inr (Or.inr (List.mem_append.mpr
            (Or.inl (parseEscape_cover regex pos hg i c h1 hin hgi))))
        · rcases ih (parseEscape regex pos).2 i c (by omega) h2 hgi
            with h | h | h
          · exact Or.inl h
          · exact Or.inr (Or.inl h)
          · exact Or.inr (Or.inr (List.mem_append.mpr (Or.inr h)))
      simp only [if_neg hc6] at h2 ⊢
      by_cases hc7 : c0 = '|'
      · simp only [if_pos hc7] at h2 ⊢
        try dsimp only at h2
        rw [joinVals_cons]
        rcases Nat.eq_or_lt_of_le h1 with he | hlt
        · subst he
          rw [hg] at hgi
          simp only [Option.some.injEq] at hgi
          subst hgi
          exact Or.inr (Or.inr (List.mem_append.mpr
            (Or.inl (List.mem_singleton.mpr rfl))))
        · rcases ih (pos + 1) i c (by omega) h2 hgi with h | h | h
          · exact Or.inl h
          · exact Or.inr (Or.inl h)
          · exact Or.inr (Or.inr (List.mem_append.mpr (Or.inr h)))
      · simp only [if_neg hc7] at h2 ⊢
        try dsimp only at h2
        rw [joinVals_cons]
        rcases Nat.eq_or_lt_of_le h1 with he | hlt
        · subst he
          rw [hg] at hgi
          simp only [Option.some.injEq] at hgi
          subst hgi
          exact Or.inr (Or.inr (List.mem_append.mpr
            (Or.inl (List.mem_singleton.mpr rfl))))
        · rcases ih (pos + 1) i c (by omega) h2 hgi with h | h | h
          · exact Or.inl h
          · exact Or.inr (Or.inl h)
          · exact Or.inr (Or.inr (List.mem_append.mpr (Or.inr h)))

theorem pgLoopF_cover (regex : List Char) :
    ∀ fuel pos i c, pos ≤ i → i < (pgLoopF regex fuel pos).2 →
      jsGet regex i = some c →
        c = lbrace ∨ c = '?' ∨ c ∈ joinVals (pgLoopF regex fuel pos).1 := by
  intro fuel
  induction fuel with
  | zero =>
    intro pos i c h1 h2 _
    simp only [pgLoopF] at h2
    omega
  | succ n ih =>
    intro pos i c h1 h2 hgi
    simp only [pgLoopF, tokenizeGroupContent] at h2 ⊢
    cases hg : jsGet regex pos with
    | none => rw [hg] at h2; simp only at h2; omega
    | some c0 =>
      rw [hg] at h2
      by_cases hc1 : c0 = ')'
      · simp only [if_pos hc1] at h2; omega
      simp only [if_neg hc1] at h2 ⊢
      try dsimp only at h2
      rw [joinVals_append]
      by_cases hin : i < (gcLoopF regex (regex.length - pos) pos).2
      · rcases gcLoopF_cover regex (regex.length - pos) pos i c h1 hin hgi
          with h | h | h
        · exact Or.inl h
        · exact Or.inr (Or.inl h)
        · exact Or.inr (Or.inr (List.mem_append.mpr (Or.inl h)))
      · rcases ih (gcLoopF regex (regex.length - pos) pos).2 i c (by omega)
          h2 hgi with h | h | h
        · exact Or.inl h
        · exact Or.inr (Or.inl h)
        · exact Or.inr (Or.inr (List.mem_append.mpr (Or.inr h)))

theorem parseGroup_cover (regex : List Char) (pos : Nat)
    (hopen : jsGet regex pos = some '(') :
    ∀ i c, pos ≤ i → i < (parseGroup regex pos).2 →
      jsGet regex i = some c →
        c = lbrace ∨ c = '?' ∨ c ∈ joinVals (parseGroup regex pos).1 := by
  intro i c h1 h2 hgi
  have hb := groupPre_bounds regex pos
  simp only [parseGroup] at h2 ⊢
  try dsimp only at h2
  rw [joinVals_cons, joinVals_append, joinVals_append]
  rcases Nat.eq_or_lt_of_le h1 with he | hlt
  · subst he
    rw [hopen] at hgi
    simp only [Option.some.injEq] at hgi
    subst hgi
    exact Or.inr (Or.inr (List.mem_append.mpr
      (Or.inl (List.mem_singleton.mpr rfl))))
  by_cases hpre : i < (groupPre regex pos).2
  · rcases groupPre_cover regex pos i c (by omega) hpre hgi with h | h
    · exact Or.inr (Or.inl h)
    · exact Or.inr (Or.inr (List.mem_append.mpr (Or.inr
        (List.mem_append.mpr (Or.inl (List.mem_append.mpr (Or.inl h)))))))
  by_cases hin : i < (pgLoopF regex (regex.length - (groupPre regex pos).2)
      (groupPre regex pos).2).2
  · rcases pgLoopF_cover regex (regex.length - (groupPre regex pos).2)
        (groupPre regex pos).2 i c (by omega) hin hgi with h | h | h
    · exact Or.inl h
    · exact Or.inr (Or.inl h)
    · exact Or.inr (Or.inr (List.mem_append.mpr (Or.inr
        (List.mem_append.mpr (Or.inl (List.mem_append.mpr (Or.inr h)))))))
  · have hi : i = (pgLoopF regex (regex.length - (groupPre regex pos).2)
        (groupPre regex pos).2).2 := by omega
    subst hi
    rcases pgLoopF_stop regex (regex.length - (groupPre regex pos).2)
        (groupPre regex pos).2 (by omega) with h | h
    · rw [h] at hgi; exact Option.noConfusion hgi
    · rw [h] at hgi
      simp only [Option.some.injEq] at hgi
      subst hgi
      refine Or.inr (Or.inr (List.mem_append.mpr (Or.inr
        (List.mem_append.mpr (Or.inr ?_)))))
      rw [joinVals_cons]
      exact List.mem_append.mpr (Or.inl (List.mem_singleton.mpr rfl))

theorem mainLoopF_cover (regex : List Char) :
    ∀ fuel pos i c, pos ≤ i → i < (mainLoopF regex fuel pos).2 →
      jsGet regex i = some c →
        c = lbrace ∨ c = '?' ∨ c ∈ joinVals (mainLoopF regex fuel pos).1 := by
  intro fuel
  induction fuel with
  | zero =>
    intro pos i c h1 h2 _
    simp only [mainLoopF] at h2
    omega
  | succ n ih =>
    intro pos i c h1 h2 hgi
    simp only [mainLoopF] at h2 ⊢
    cases hg : jsGet regex pos with
    | none => rw [hg] at h2; simp only at h2; omega
    | some c0 =>
      rw [hg] at h2
      by_cases hc1 : isAnchor c0
      · simp only [if_pos hc1] at h2 ⊢
        try dsimp only at h2
        rw [joinVals_cons]
        rcases Nat.eq_or_lt_of_le h1 with he | hlt
        · subst he
          rw [hg] at hgi
          simp only [Option.some.injEq] at hgi
          subst hgi
          exact Or.inr (Or.inr (List.mem_append.mpr
            (Or.inl (List.mem_singleton.mpr rfl))))
        · rcases ih (pos + 1) i c (by omega) h2 hgi with h | h | h
          · exact Or.inl h
          · exact Or.inr (Or.inl h)
          · exact Or.inr (Or.inr (List.mem_append.mpr (Or.inr h)))
      simp only [if_neg hc1] at h2 ⊢
      by_cases hc2 : isMetaChar c0
      · simp only [if_pos hc2] at h2 ⊢
        try dsimp only at h2
        rw [joinVals_cons]
        rcases Nat.eq_or_lt_of_le h1 with he | hlt
        · subst he
          rw [hg] at hgi
          simp only [Option.some.injEq] at hgi
          subst hgi
          exact Or.inr (Or.inr (List.mem_append.mpr
            (Or.inl (List.mem_singleton.mpr rfl))))
        · rcases ih (pos + 1) i c (by omega) h2 hgi with h | h | h
          · exact Or.inl h
          · exact Or.inr (Or.inl h)
          · exact Or.inr (Or.inr (List.mem_append.mpr (Or.inr h)))
      simp only [if_neg hc2] at h2 ⊢
      by_cases hc3 : c0 = '('
      · simp only [if_pos hc3] at h2 ⊢
        try dsimp only at h2
        rw [joinVals_append]
        subst hc3
        by_cases hin : i < (parseGroup regex pos).2
        · rcases parseGroup_cover regex pos hg i c h1 hin hgi with h | h | h
          · exact Or.inl h
          · exact Or.inr (Or.inl h)
          · exact Or.inr (Or.inr (List.mem_append.mpr (Or.inl h)))
        · rcases ih (parseGroup regex pos).2 i c (by omega) h2 hgi
            with h | h | h
          · exact Or.inl h
          · exact Or.inr (Or.inl h)
          · exact Or.inr (Or.inr (List.mem_append.mpr (Or.inr h)))
      simp only [if_neg hc3] at h2 ⊢
      by_cases hc4 : c0 = '['
      · simp only [if_pos hc4] at h2 ⊢
        try dsimp only at h2
        rw [joinVals_append]
        subst hc4
        by_cases hin : i < (parseRange regex pos).2
        · exact Or.inr (Or.inr (List.mem_append.mpr
            (Or.inl (parseRange_cover regex pos hg i c h1 hin hgi))))
        · rcases ih (parseRange regex pos).2 i c (by omega) h2 hgi
            with h | h | h
          · exact Or.inl h
          · exact Or.inr (Or.inl h)
          · exact Or.inr (Or.inr (List.mem_append.mpr (Or.inr h)))
      simp only [if_neg hc4] at h2 ⊢
      by_cases hc5 : isQuantifierStart c0
      · simp only [if_pos hc5] at h2 ⊢
        try dsimp only at h2
        rw [joinVals_cons]
        have hq : jsGet regex pos = some lbrace := by
          rw [hg, isQuantifierStart_eq hc5]
        by_cases hin : i < (parseQuantifier regex pos).2
        · rcases parseQuantifier_cover regex pos hq i c h1 hin hgi with h | h
          · exact Or.inl h
          · exact Or.inr (Or.inr (List.mem_append.mpr (Or.inl h)))
        · rcases ih (parseQuantifier regex pos).2 i c (by omega) h2 hgi
            with h | h | h
          · exact Or.inl h
          · exact Or.inr (Or.inl h)
          · exact Or.inr (Or.inr (List.mem_append.mpr (Or.inr h)))
      simp only [if_neg hc5] at h2 ⊢
      by_cases hc6 : c0 = '\\'
      · simp only [if_pos hc6] at h2 ⊢
        try dsimp only at h2
        rw [joinVals_cons]
        subst hc6
        by_cases hin : i < (parseEscape regex pos).2
        · exact Or.inr (Or.inr (List.mem_append.mpr
            (Or.inl (parseEscape_cover regex pos hg i c h1 hin hgi))))
        · rcases ih (parseEscape regex pos).2 i c (by omega) h2 hgi
            with h | h | h
          · exact Or.inl h
          · exact Or.inr (Or.inl h)
          · exact Or.inr (Or.inr (List.mem_append.mpr (Or.inr h)))
      simp only [if_neg hc6] at h2 ⊢
      by_cases hc7 : c0 = '|'
      · simp only [if_pos hc7] at h2 ⊢
        try dsimp only at h2
        rw [joinVals_cons]
        rcases Nat.eq_or_lt_of_le h1 with he | hlt
        · subst he
          rw [hg] at hgi
          simp only [Option.some.injEq] at hgi
          subst hgi
          exact Or.inr (Or.inr (List.mem_append.mpr
            (Or.inl (List.mem_singleton.mpr rfl))))
        · rcases ih (pos + 1) i c (by omega) h2 hgi with h | h | h
          · exact Or.inl h
          · exact Or.inr (Or.inl h)
          · exact Or.inr (Or.inr (List.mem_append.mpr (Or.inr h)))
      · simp only [if_neg hc7] at h2 ⊢
        try dsimp only at h2
        rw [joinVals_cons]
        rcases Nat.eq_or_lt_of_le h1 with he | hlt
        · subst he
          rw [hg] at hgi
          simp only [Option.some.injEq] at hgi
          subst hgi
          exact Or.inr (Or.inr (List.mem_append.mpr
            (Or.inl (List.mem_singleton.mpr rfl))))
        · rcases ih (pos + 1) i c (by omega) h2 hgi with h | h | h
          · exact Or.inl h
          · exact Or.inr (Or.inl h)
          · exact Or.inr (Or.inr (List.mem_append.mpr (Or.inr h)))

/-- Every input character other than a quantifier-opening brace or a group
lookahead question mark reaches the text of some emitted token. -/
theorem tokenize_cover (regex : List Char) :
    ∀ c ∈ regex, c = lbrace ∨ c = '?' ∨ c ∈ joinVals (tokenize regex) := by
  intro c hc
  obtain ⟨⟨i, hi⟩, hget⟩ := List.mem_iff_get.mp hc
  have hjs : jsGet regex i = some c := by
    rw [jsGet, List.get?_eq_get hi, hget]
  have hcomp := mainLoopF_complete regex (regex.length - 0) 0 (by omega)
  exact mainLoopF_cover regex (regex.length - 0) 0 i c (by omega)
    (by omega) hjs

/-! ### Substring facts -/

theorem isSubstrB_singleton (c : Char) (l : List Char) (h : c ∈ l) :
    isSubstrB [c] l = true := by
  induction l with
  | nil => simp at h
  | cons b bs ih =>
    rcases List.mem_cons.mp h with h1 | h1
    · subst h1
      simp [isSubstrB, isPrefixB]
    · simp only [isSubstrB, Bool.or_eq_true]
      exact Or.inr (ih h1)

theorem mem_of_jsGet_some {regex : List Char} {i : Nat} {c : Char}
    (h : jsGet regex i = some c) : c ∈ regex := by
  have hlt := lt_of_jsGet_some h
  rw [jsGet, List.get?_eq_get hlt] at h
  simp only [Option.some.injEq] at h
  rw [← h]
  exact List.get_mem regex i hlt

/-! ### The claims -/

/-- Claim C1 counterexample: the claim asserts that for inputs containing the
non-capturing-group prefix "(?:" no input character is absent from every
token's text; but on "(?:a)" the group scan consumes the input's `?` without
emitting any token holding it, so `?` appears in no token's text. -/
theorem C1_counterexample :
    '?' ∈ ['(', '?', ':', 'a', ')'] ∧
      '?' ∉ joinVals (tokenize ['(', '?', ':', 'a', ')']) := by
  decide

/-- Claim C1 (amended): every input character other than a literal brace
(consumed unrecorded by the quantifier scan) or a question mark (consumed
unrecorded by the group scan's "(?"-handling) appears in the concatenation of
the emitted tokens' texts. -/
theorem C1_chars_covered (regex : List Char) :
    ∀ c ∈ regex, c ≠ lbrace → c ≠ '?' →
      c ∈ joinVals (tokenize regex) := by
  intro c hc h1 h2
  rcases tokenize_cover regex c hc with h | h | h
  · exact absurd h h1
  · exact absurd h h2
  · exact h

/-- Claim C1 witness: on the input "ab" the character `a` is covered. -/
theorem C1_chars_covered_witness :
    'a' ∈ (['a', 'b'] : List Char) ∧ 'a' ∈ joinVals (tokenize ['a', 'b']) :=
  ⟨by decide, C1_chars_covered ['a', 'b'] 'a' (by decide) (by decide)
    (by decide)⟩

/-- Claim C2 counterexample: the claim asserts every token's `text` is an
exact contiguous substring of the input, in particular for the NegLookahead
token; but tokenizing "(?!a)" emits a NegLookahead token with the fixed text
"(?!)", which occurs nowhere in the input "(?!a)". -/
theorem C2_counterexample :
    Token.mk TokenType.NEG_LOOKAHEAD ['(', '?', '!', ')'] 2 ∈
        tokenize ['(', '?', '!', 'a', ')'] ∧
      isSubstrB ['(', '?', '!', ')'] ['(', '?', '!', 'a', ')'] = false := by
  decide

/-- Claim C2 (amended): for every token of a single-character kind (Char,
MetaChar, Anchor, Pipe, GroupOpen, RangeOpen) the token's text is exactly the
input character at the token's recorded position — in particular an exact
contiguous substring of the input.  NegLookahead tokens (fixed text "(?!)"),
Quantifier tokens (text drops the opening brace and gains a closing brace
even when the input's brace is unterminated), and close/escape tokens cut off
by the end of the input are the exceptions. -/
theorem C2_single_char_text_exact (regex : List Char) (t : Token)
    (ht : t ∈ tokenize regex) (hk : singleCharKind t.type = true) :
    t.position < regex.length ∧
      (∃ c, jsGet regex t.position = some c ∧ t.value = [c]) ∧
      isSubstrB t.value regex = true := by
  have h := mainLoopF_tokOK regex (regex.length - 0) 0 t ht
  obtain ⟨c, hgc, hv⟩ := h.2.2 hk
  refine ⟨lt_of_jsGet_some hgc, ⟨c, hgc, hv⟩, ?_⟩
  rw [hv]
  exact isSubstrB_singleton c regex (mem_of_jsGet_some hgc)

/-- Claim C2 witness: the Char token of tokenizing "a". -/
theorem C2_single_char_text_exact_witness :
    Token.mk TokenType.CHAR ['a'] 0 ∈ tokenize ['a'] ∧
      ((Token.mk TokenType.CHAR ['a'] 0).position < (['a'] : List Char).length ∧
        (∃ c, jsGet ['a'] (Token.mk TokenType.CHAR ['a'] 0).position = some c ∧
          (Token.mk TokenType.CHAR ['a'] 0).value = [c]) ∧
        isSubstrB (Token.mk TokenType.CHAR ['a'] 0).value ['a'] = true) :=
  ⟨by decide, C2_single_char_text_exact ['a'] (Token.mk TokenType.CHAR ['a'] 0)
    (by decide) (by decide)⟩

/-- Claim C3: tokenize never fails and returns a token sequence on every
input; in particular, the group scan always ends by emitting a `GroupClose`
token (also when the input is exhausted before any `)` is found), and
tokenize returns normally on an unmatched `(`, `[`, `{` and on a trailing
backslash. -/
theorem C3_total_never_fails :
    (∀ regex pos, ∃ q, ((parseGroup regex pos).1).getLast? =
        some (Token.mk TokenType.GROUP_CLOSE [')'] q)) ∧
      tokenize ['(', 'a'] =
        [Token.mk TokenType.GROUP_OPEN ['('] 0, Token.mk TokenType.CHAR ['a'] 1,
          Token.mk TokenType.GROUP_CLOSE [')'] 2] ∧
      tokenize ['[', 'a'] =
        [Token.mk TokenType.RANGE_OPEN ['['] 0, Token.mk TokenType.CHAR ['a'] 1,
          Token.mk TokenType.RANGE_CLOSE [']'] 2] ∧
      tokenize [lbrace, '1'] =
        [Token.mk TokenType.QUANTIFIER ['1', rbrace] 3] ∧
      tokenize ['a', '\\'] =
        [Token.mk TokenType.CHAR ['a'] 0,
          Token.mk TokenType.ESCAPE
            ['\\', 'u', 'n', 'd', 'e', 'f', 'i', 'n', 'e', 'd'] 2] := by
  refine ⟨?_, by decide, by decide, by decide, by decide⟩
  intro regex pos
  refine ⟨(pgLoopF regex (regex.length - (groupPre regex pos).2)
    (groupPre regex pos).2).2, ?_⟩
  simp only [parseGroup]
  rw [← List.cons_append, List.getLast?_concat]

/-- Claim C4: tokenize terminates on every input.  The cursor never
decreases over the run; any fuel at least `length - pos` (one unit per loop
iteration, each of which strictly advances the cursor) yields the same,
canonical result; and whenever a character remains the run strictly advances
the cursor. -/
theorem C4_terminates (regex : List Char) (pos fuel : Nat) :
    pos ≤ (mainLoopF regex fuel pos).2 ∧
      (regex.length - pos ≤ fuel →
        mainLoopF regex fuel pos = tokenizeFrom regex pos) ∧
      (0 < fuel → pos < regex.length →
        pos + 1 ≤ (mainLoopF regex fuel pos).2) := by
  refine ⟨mainLoopF_le regex fuel pos, ?_, ?_⟩
  · intro hf
    exact mainLoopF_irrel regex fuel (regex.length - pos) pos hf (le_refl _)
  · intro hf hp
    obtain ⟨c, hc⟩ := jsGet_some_of_lt hp
    exact mainLoopF_advance regex fuel pos hf hc

/-- Claim C4 witness: on the input "a" with fuel 1 from position 0. -/
theorem C4_terminates_witness :
    mainLoopF ['a'] 1 0 = tokenizeFrom ['a'] 0 ∧
      0 + 1 ≤ (mainLoopF ['a'] 1 0).2 :=
  ⟨(C4_terminates ['a'] 0 1).2.1 (by decide),
    (C4_terminates ['a'] 0 1).2.2 (by decide) (by decide)⟩

/-- Claim C5: group content is emitted flat: inside a group a `(` is not
special-cased and yields a plain Char token, and tokenizing "(a|b)" gives
exactly GroupOpen, Char a, Pipe, Char b, GroupClose. -/
theorem C5_groups_flat :
    (∀ regex pos fuel, 0 < fuel → jsGet regex pos = some '(' →
      ((gcLoopF regex fuel pos).1).head? =
        some (Token.mk TokenType.CHAR ['('] pos)) ∧
      tokenize ['(', 'a', '|', 'b', ')'] =
        [Token.mk TokenType.GROUP_OPEN ['('] 0, Token.mk TokenType.CHAR ['a'] 1,
          Token.mk TokenType.PIPE ['|'] 2, Token.mk TokenType.CHAR ['b'] 3,
          Token.mk TokenType.GROUP_CLOSE [')'] 4] := by
  refine ⟨?_, by decide⟩
  intro regex pos fuel hf hg
  cases fuel with
  | zero => omega
  | succ n =>
    simp only [gcLoopF]
    rw [hg]
    rfl

/-- Claim C5 witness: a lone `(` scanned as group content. -/
theorem C5_groups_flat_witness :
    ((gcLoopF ['('] 1 0).1).head? = some (Token.mk TokenType.CHAR ['('] 0) :=
  C5_groups_flat.1 ['('] 0 1 (by decide) (by decide)

/-- Claim C6: a group opening with "(?=" emits a Lookahead token with text
"(?=" immediately after the GroupOpen token; a group opening with "(?!" emits
a NegLookahead token with the fixed text "(?!)" regardless of content. -/
theorem C6_lookahead_prefixes :
    (∀ regex pos, jsGet regex (pos + 1) = some '?' →
      jsGet regex (pos + 2) = some '=' →
      ((parseGroup regex pos).1).take 2 =
        [Token.mk TokenType.GROUP_OPEN ['('] pos,
          Token.mk TokenType.LOOKAHEAD ['(', '?', '='] (pos + 2)]) ∧
      (∀ regex pos, jsGet regex (pos + 1) = some '?' →
        jsGet regex (pos + 2) = some '!' →
        ((parseGroup regex pos).1).take 2 =
          [Token.mk TokenType.GROUP_OPEN ['('] pos,
            Token.mk TokenType.NEG_LOOKAHEAD ['(', '?', '!', ')'] (pos + 2)]) ∧
      tokenize ['(', '?', '=', 'a', ')'] =
        [Token.mk TokenType.GROUP_OPEN ['('] 0,
          Token.mk TokenType.LOOKAHEAD ['(', '?', '='] 2,
          Token.mk TokenType.CHAR ['a'] 3,
          Token.mk TokenType.GROUP_CLOSE [')'] 4] := by
  refine ⟨?_, ?_, by decide⟩
  · intro regex pos hq he
    simp only [parseGroup, groupPre, if_pos hq, if_pos he]
    rfl
  · intro regex pos hq hb
    have hne : jsGet regex (pos + 2) ≠ some '=' := by
      rw [hb]; intro h; exact absurd (Option.some.injEq _ _ ▸ h) (by decide)
    simp only [parseGroup, groupPre, if_pos hq, if_neg hne, if_pos hb]
    rfl

/-- Claim C6 witness: the "(?=" and "(?!" openings at position 0. -/
theorem C6_lookahead_prefixes_witness :
    ((parseGroup ['(', '?', '='] 0).1).take 2 =
        [Token.mk TokenType.GROUP_OPEN ['('] 0,
          Token.mk TokenType.LOOKAHEAD ['(', '?', '='] 2] ∧
      ((parseGroup ['(', '?', '!'] 0).1).take 2 =
        [Token.mk TokenType.GROUP_OPEN ['('] 0,
          Token.mk TokenType.NEG_LOOKAHEAD ['(', '?', '!', ')'] 2] :=
  ⟨C6_lookahead_prefixes.1 ['(', '?', '='] 0 (by decide) (by decide),
    C6_lookahead_prefixes.2.1 ['(', '?', '!'] 0 (by decide) (by decide)⟩

/-- Claim C7: non-capturing-group and lookbehind openings "(?:", "(?<=",
"(?<!" produce no distinct token kind: when the character after "(?" is
neither `=` nor `!`, no Lookahead or NegLookahead token is emitted anywhere
in the group, and the `:` (resp. `<`, `=`, `!`) characters come out as plain
Char tokens. -/
theorem C7_no_special_kinds :
    (∀ regex pos t, jsGet regex (pos + 1) = some '?' →
      jsGet regex (pos + 2) ≠ some '=' → jsGet regex (pos + 2) ≠ some '!' →
      t ∈ (parseGroup regex pos).1 →
        t.type ≠ TokenType.LOOKAHEAD ∧ t.type ≠ TokenType.NEG_LOOKAHEAD) ∧
      tokenize ['(', '?', ':', 'a', ')'] =
        [Token.mk TokenType.GROUP_OPEN ['('] 0, Token.mk TokenType.CHAR [':'] 2,
          Token.mk TokenType.CHAR ['a'] 3,
          Token.mk TokenType.GROUP_CLOSE [')'] 4] ∧
      tokenize ['(', '?', '<', '=', 'a', ')'] =
        [Token.mk TokenType.GROUP_OPEN ['('] 0, Token.mk TokenType.CHAR ['<'] 2,
          Token.mk TokenType.CHAR ['='] 3, Token.mk TokenType.CHAR ['a'] 4,
          Token.mk TokenType.GROUP_CLOSE [')'] 5] ∧
      tokenize ['(', '?', '<', '!', 'a', ')'] =
        [Token.mk TokenType.GROUP_OPEN ['('] 0, Token.mk TokenType.CHAR ['<'] 2,
          Token.mk TokenType.CHAR ['!'] 3, Token.mk TokenType.CHAR ['a'] 4,
          Token.mk TokenType.GROUP_CLOSE [')'] 5] := by
  refine ⟨?_, by decide, by decide, by decide⟩
  intro regex pos t hq he hb ht
  simp only [parseGroup] at ht
  rcases List.mem_cons.mp ht with h | h
  · subst h
    exact ⟨by simp, by simp⟩
  rcases List.mem_append.mp h with h2 | h2
  · rcases List.mem_append.mp h2 with h3 | h3
    · rw [groupPre, if_pos hq, if_neg he, if_neg hb] at h3
      simp at h3
    · exact (pgLoopF_tokOK regex (regex.length - (groupPre regex pos).2)
        (groupPre regex pos).2 t h3).2
  · simp only [List.mem_singleton] at h2
    subst h2
    exact ⟨by simp, by simp⟩

/-- Claim C7 witness: the Char token holding `:` inside "(?:a)". -/
theorem C7_no_special_kinds_witness :
    (Token.mk TokenType.CHAR [':'] 2).type ≠ TokenType.LOOKAHEAD ∧
      (Token.mk TokenType.CHAR [':'] 2).type ≠ TokenType.NEG_LOOKAHEAD :=
  C7_no_special_kinds.1 ['(', '?', ':', 'a', ')'] 0
    (Token.mk TokenType.CHAR [':'] 2) (by decide) (by decide) (by decide)
    (by decide)

/-- Claim C8: a backslash followed by a decimal digit consumes exactly that
one digit and emits one Backreference token with text backslash-digit; on
the input "\10" the `1` goes into the Backreference text and the `0` is
re-scanned as a plain Char token. -/
theorem C8_single_digit_backreference :
    (∀ regex pos d, jsGet regex (pos + 1) = some d → d.isDigit = true →
      parseEscape regex pos =
        (Token.mk TokenType.BACKREFERENCE ['\\', d] (pos + 2), pos + 2)) ∧
      tokenize ['\\', '1', '0'] =
        [Token.mk TokenType.BACKREFERENCE ['\\', '1'] 2,
          Token.mk TokenType.CHAR ['0'] 2] := by
  refine ⟨?_, by decide⟩
  intro regex pos d hd hdig
  have hud : d ≠ 'u' := by
    rintro rfl
    exact absurd hdig (by decide)
  have hxd : d ≠ 'x' := by
    rintro rfl
    exact absurd hdig (by decide)
  simp only [parseEscape, hd, Option.some.injEq, if_neg hud, if_neg hxd,
    jsDigitTest, hdig, if_true, parseBackreference, jsStr]

/-- Claim C8 witness: the escape scan on "\1" at position 0. -/
theorem C8_single_digit_backreference_witness :
    parseEscape ['\\', '1'] 0 =
      (Token.mk TokenType.BACKREFERENCE ['\\', '1'] 2, 2) :=
  C8_single_digit_backreference.1 ['\\', '1'] 0 '1' (by decide) (by decide)

/-- Claim C9: for every input the recorded positions of the emitted tokens
are monotonically non-decreasing in sequence order (adjacent tokens may share
a position). -/
theorem C9_positions_monotone (regex : List Char) :
    (tokenize regex).Pairwise (fun a b => a.position ≤ b.position) :=
  mainLoopF_pairwise regex (regex.length - 0) 0

/-- Claim C10: calling tokenize a second time on the same instance returns
the empty token sequence: the cursor is not reset, and after the first call
it is at least the input length, so the second call's loop body never runs. -/
theorem C10_second_call_empty (regex : List Char) :
    regex.length ≤ (tokenizeFrom regex 0).2 ∧
      (tokenizeFrom regex (tokenizeFrom regex 0).2).1 = [] := by
  have hc := mainLoopF_complete regex (regex.length - 0) 0 (by omega)
  refine ⟨hc, ?_⟩
  have hz : regex.length - (tokenizeFrom regex 0).2 = 0 := by
    simp only [tokenizeFrom]
    omega
  rw [tokenizeFrom, hz]
  rfl

end Regsafe
